import Mathlib

/-!
# CoDec: the DIF image codec

A shallow embedding of `src/CoDec/src/CoDec.c` (with the declarations of
`src/CoDec/include/CoDec.h`) and a verification of its bit stream, its
quantizer code, its delta transform and its container framing.

Conventions of the embedding.

* A byte (`uchar`) is a `Nat`; every store into a `uchar` is followed by `% 256`.
* An `unsigned int` is a `Nat` reduced `% 2 ^ 32`, an `unsigned short` is reduced
  `% 65536`.
* A signed `int` is an `Int` (or a `Nat` when it cannot be negative).  Signed
  overflow in a size computation is undefined behaviour in C; a run that
  meets it, or that reads or writes outside an allocated block, is `Run.undef`.
* A `Stream` carries the block it points into: `ptr` is the offset of
  `s->ptr` from the base of the block and `s->end` is the length of the block.
* File input and output are byte lists.
-/

namespace CoDec

/-! ## Constants of CoDec.h -/

/-- Magic number for grayscale DIF files. -/
def MAGIC_GRAY : Nat := 0xD1FF

/-- Magic number for RGB DIF files. -/
def MAGIC_RGB : Nat := 0xD3FF

/-- Number of quantization levels. -/
def NUM_LEVELS : Nat := 4

/-- Largest value of a 32-bit `int`. -/
def INT_MAX : Nat := 2147483647

/-- The 32-bit two's-complement value of an `int` expression. -/
def wrap_int (x : Int) : Int := (x + 2147483648) % 4294967296 - 2147483648

/-! ## Data model -/

/-- The `Picture` of CoDec.h.  `w` and `h` are the (non-negative) values parsed
by `picture_load`, `channels` is 1 or 3, `pixels` is the raster that follows
the PNM header. -/
structure Picture where
  w : Nat
  h : Nat
  channels : Nat
  pixels : List Nat
deriving DecidableEq

/-- The `Stream` of CoDec.h together with the block it walks: `ptr` is the
offset of `s->ptr` in `buf`, `s->end` is `buf.length`, `bitpos` is the bit
offset in the current byte. -/
structure Stream where
  buf : List Nat
  ptr : Nat
  bitpos : Nat
deriving DecidableEq

/-- The `Quantizer` of CoDec.h; the two arrays are given by their contents at
each index. -/
structure Quantizer where
  levels : Nat
  bits : Nat → Nat
  bounds : Nat → Nat

/-- Outcome of running one of the two converters on in-memory data: either
the C run has no defined behaviour, or it returns `code` after writing `out`
(when it wrote a file at all). -/
inductive Run (α : Type) where
  | undef : Run α
  | ret (code : Nat) (out : Option α) : Run α
deriving DecidableEq

/-- Contents of the automatic storage `diftopnm` reads without having written
it: `enc k` is the byte found in `enc` when `decode_value` fails at sample
`k`, `bits` and `bounds` are the initial contents of the `Quantizer` arrays
(an `int` found there acts through `max 0` as a bit count and through its
residue mod 256 as a bound, so naturals cover every case). -/
structure Uninit where
  enc : Nat → Nat
  bits : Nat → Nat
  bounds : Nat → Nat

/-! ## Bit stream (CoDec.c, lines 20-93) -/

/-- Function `stream_init_write(s, buf, size)` with `size = buf.length`. -/
def stream_init_write (buf : List Nat) : Stream :=
  ⟨if 0 < buf.length then buf.set 0 0 else buf, 0, 0⟩

/-- Function `stream_init_read(s, buf, size)` with `size = buf.length`. -/
def stream_init_read (buf : List Nat) : Stream :=
  ⟨buf, 0, 0⟩

/-- Body of the loop of `stream_write_bits` after its bounds check: or the
bit into the current byte and advance the cursor, clearing the next byte when
one is entered. -/
def put_bit (s : Stream) (bit : Nat) : Stream :=
  let buf1 := s.buf.set s.ptr ((s.buf.getD s.ptr 0 ||| (bit <<< (7 - s.bitpos))) % 256)
  if s.bitpos + 1 = 8 then
    ⟨if s.ptr + 1 < buf1.length then buf1.set (s.ptr + 1) 0 else buf1, s.ptr + 1, 0⟩
  else
    ⟨buf1, s.ptr, s.bitpos + 1⟩

/-- Function `stream_write_bits(s, value, nbits)`: the loop runs `i = nbits-1 .. 0`;
the result is the return value (`true` for 1) and the stream left behind.
This is the function for `nbits ≤ 32` (the callers pass at most 8): above 32
the source shifts its 32-bit `value` by 32 or more, which C leaves undefined,
and `stream_write_bits_run` is the function with that case kept. -/
def stream_write_bits (s : Stream) (value : Nat) : Nat → Bool × Stream
  | 0 => (true, s)
  | i + 1 =>
    if s.buf.length ≤ s.ptr then (false, s)
    else stream_write_bits (put_bit s ((value >>> i) &&& 1)) value i

/-- Function `stream_write_bits(s, value, nbits)` with the width of `value`
kept: `value` is an `unsigned int`, so an iteration that gets past the bounds
test with `i ≥ 32` evaluates `value >> i` with a shift count of at least the
width of the type, which C leaves undefined (`none`).  For `nbits ≤ 32` it is
`stream_write_bits`. -/
def stream_write_bits_run (s : Stream) (value : Nat) : Nat → Option (Bool × Stream)
  | 0 => some (true, s)
  | i + 1 =>
    if s.buf.length ≤ s.ptr then some (false, s)
    else if 32 ≤ i then none
    else stream_write_bits_run (put_bit s ((value >>> i) &&& 1)) value i

/-- Cursor movement of one iteration of `stream_read_bits`. -/
def advance_bit (s : Stream) : Stream :=
  if s.bitpos + 1 = 8 then ⟨s.buf, s.ptr + 1, 0⟩ else ⟨s.buf, s.ptr, s.bitpos + 1⟩

/-- The loop of `stream_read_bits` with `result` as accumulator; `none`
stands for the return value 0, in which case `*value` is not written. -/
def stream_read_loop (s : Stream) (result : Nat) : Nat → Option Nat × Stream
  | 0 => (some result, s)
  | n + 1 =>
    if s.buf.length ≤ s.ptr then (none, s)
    else
      let bit := (s.buf.getD s.ptr 0 >>> (7 - s.bitpos)) &&& 1
      stream_read_loop (advance_bit s) (((result <<< 1) ||| bit) % 2 ^ 32) n

/-- Function `stream_read_bits(s, nbits, value)`. -/
def stream_read_bits (s : Stream) (nbits : Nat) : Option Nat × Stream :=
  stream_read_loop s 0 nbits

/-- Function `stream_bytes_used(s, buf)` while `bits + 7` fits `int`, which it
does for every buffer `pnmtodif` allocates; `stream_bytes_used_run` is the
function in the `int` arithmetic of the source. -/
def stream_bytes_used (s : Stream) : Nat :=
  (s.ptr * 8 + s.bitpos + 7) / 8

/-- Function `stream_bytes_used(s, buf)` in the arithmetic of the source: the
pointer difference times 8 plus `bitpos` is converted to the `int` `bits`
(two's-complement conversion), and `bits + 7` is an `int` addition, undefined
beyond `INT_MAX` (`none`); the division truncates. -/
def stream_bytes_used_run (s : Stream) : Option Int :=
  let bits := wrap_int ((s.ptr : Int) * 8 + (s.bitpos : Int))
  if (INT_MAX : Int) < bits + 7 then none else some ((bits + 7).tdiv 8)

/-! ## Quantization and prefix code (CoDec.c, lines 178-281) -/

/-- Function `map_value(val)`. -/
def map_value (val : Nat) : Nat :=
  if val ≥ 22 then 3
  else if val ≥ 6 then 2
  else if val ≥ 2 then 1
  else 0

/-- Function `level_bits(level)`: entry of `bits_table`. -/
def level_bits (level : Nat) : Nat := [1, 2, 4, 8].getD level 0

/-- Function `prefix_length(level)`: entry of `len_table`. -/
def prefix_length (level : Nat) : Nat := [1, 2, 3, 3].getD level 0

/-- Function `prefix_code(level)`: entry of `code_table`. -/
def prefix_code (level : Nat) : Nat := [0b0, 0b10, 0b110, 0b111].getD level 0

/-- Function `level_bound(level)`: entry of `bound_table`. -/
def level_bound (level : Nat) : Nat := [0, 2, 6, 22].getD level 0

/-- Function `zigzag_encode(diff)`; the result is stored in a `uchar`. -/
def zigzag_encode (diff : Int) : Nat :=
  ((if diff ≥ 0 then 2 * diff else -2 * diff - 1) % 256).toNat

/-- Function `zigzag_decode(encoded)`; the division is C's, truncating toward zero. -/
def zigzag_decode (encoded : Nat) : Int :=
  if encoded &&& 1 ≠ 0 then (-((encoded : Int) + 1)).tdiv 2 else ((encoded : Int)).tdiv 2

/-- Function `encode_value(s, val)`: return value and stream left behind.  The
payload `val - level_bound(level)` is computed in `int` and converted to
`unsigned int`. -/
def encode_value (s : Stream) (val : Nat) : Bool × Stream :=
  let level := map_value val
  let r1 := stream_write_bits s (prefix_code level) (prefix_length level)
  if r1.1 = false then (false, r1.2)
  else
    let data := (((val : Int) - (level_bound level : Int)) % 2 ^ 32).toNat
    stream_write_bits r1.2 data (level_bits level)

/-- Function `decode_value(s, val, q)`: `none` stands for the return value 0 (`*val`
is then left unwritten), `some v` for the byte stored in `*val`. -/
def decode_value (s : Stream) (q : Quantizer) : Option Nat × Stream :=
  match stream_read_bits s 1 with
  | (none, s1) => (none, s1)
  | (some bit1, s1) =>
    let after (level : Nat) (t : Stream) : Option Nat × Stream :=
      match stream_read_bits t (q.bits level) with
      | (none, t1) => (none, t1)
      | (some data, t1) => (some ((data + q.bounds level) % 256), t1)
    if bit1 = 0 then after 0 s1
    else
      match stream_read_bits s1 1 with
      | (none, s2) => (none, s2)
      | (some bit2, s2) =>
        if bit2 = 0 then after 1 s2
        else
          match stream_read_bits s2 1 with
          | (none, s3) => (none, s3)
          | (some bit3, s3) => after (if bit3 = 0 then 2 else 3) s3

/-! ## DIF header and the two converters (CoDec.c, lines 293-405) -/

/-- Bytes `write_u16(fp, val)` writes; the argument is converted to
`unsigned short`. -/
def write_u16 (val : Nat) : List Nat :=
  [(val % 65536) &&& 0xFF, ((val % 65536) >>> 8) &&& 0xFF]

/-- Value `read_u16` stores from the two bytes it read. -/
def read_u16 (b0 b1 : Nat) : Nat :=
  (b0 ||| (b1 <<< 8)) % 65536

/-- State of the sample loop of `pnmtodif`: the array `prev` and the stream. -/
structure EncState where
  prev : List Int
  stream : Stream

/-- Body of the inner loop of `pnmtodif` for pixel `i` and channel `c`; the
result of `encode_value` is dropped as in the source. -/
def encode_sample (reduced : List Nat) (channels i c : Nat) (st : EncState) : EncState :=
  let current : Int := (reduced.getD (i * channels + c) 0 : Nat)
  let encoded := zigzag_encode (current - st.prev.getD c 0)
  ⟨st.prev.set c current, (encode_value st.stream encoded).2⟩

/-- Inner loop of `pnmtodif`: `c = 0 .. channels-1`. -/
def encode_pixel (reduced : List Nat) (channels i : Nat) (st : EncState) : EncState :=
  (List.range channels).foldl (fun st c => encode_sample reduced channels i c st) st

/-- Outer loop of `pnmtodif`: `i = 1 .. wh-1`. -/
def encode_loop (reduced : List Nat) (channels wh : Nat) (st : EncState) : EncState :=
  (List.range' 1 (wh - 1)).foldl (fun st i => encode_pixel reduced channels i st) st

/-- The header `pnmtodif` writes before the seed bytes. -/
def dif_header (pic : Picture) : List Nat :=
  write_u16 (if pic.channels = 3 then MAGIC_RGB else MAGIC_GRAY)
    ++ write_u16 pic.w ++ write_u16 pic.h
    ++ [NUM_LEVELS % 256]
    ++ (List.range NUM_LEVELS).map (fun i => level_bits i % 256)

/-- The payload part of `pnmtodif` (lines 325-340 and 350): the zeroed buffer
of `bufsize` bytes, the seed of `prev`, the sample loop, and the bytes of the
buffer that `stream_bytes_used` reports. -/
def encode_payload (reduced : List Nat) (channels wh total : Nat) : List Nat :=
  let bufsize := (total * 11 + 7) / 8 + 16
  let stream := stream_init_write (List.replicate bufsize 0)
  let prev : List Int :=
    (List.range channels).foldl (fun pv c => pv.set c ((reduced.getD c 0 : Nat) : Int)) [0, 0, 0]
  let st := encode_loop reduced channels wh ⟨prev, stream⟩
  st.stream.buf.take (stream_bytes_used st.stream)

/-- Function `pnmtodif` on a parsed PNM: the tail of `picture_load` (size,
allocation, raster read) followed by the encoder; the output is the content of
the DIF file.  In order: `w * h` and `w * h * channels` are computed in `int`
(beyond `INT_MAX`: signed overflow); `picture_load` fails, and `pnmtodif`
returns 1, when the raster has fewer than `total` bytes; `prev` has three
slots and the seeds `reduced[c]` lie inside `reduced` only when
`channels ≤ total`; `bufsize = (total * 11 + 7) / 8 + 16` is computed in `int`
(beyond `INT_MAX`: signed overflow; where the wrapped size is negative no
buffer is allocated and the first write goes through a null pointer). -/
def pnmtodif_run (pic : Picture) : Run (List Nat) :=
  let wh := pic.w * pic.h
  let total := wh * pic.channels
  if INT_MAX < wh ∨ INT_MAX < total then Run.undef
  else if pic.pixels.length < total then Run.ret 1 none
  else if 3 < pic.channels ∨ total < pic.channels then Run.undef
  else if INT_MAX < total * 11 + 7 then Run.undef
  else
    let reduced := (pic.pixels.take total).map (fun p => (p >>> 1) % 256)
    Run.ret 0 (some (dif_header pic ++ reduced.take pic.channels
      ++ encode_payload reduced pic.channels wh total))

/-- One round of the loop of `diftopnm` that fills the quantizer: `b` is the
byte read for level `i`.  A shift count of 31 or more, or a bound beyond
`INT_MAX`, has no defined result. -/
def quant_step (q : Quantizer) (i b : Nat) : Option Quantizer :=
  let bits := Function.update q.bits i b
  if 0 < i then
    if 31 ≤ bits (i - 1) ∨ INT_MAX < q.bounds (i - 1) + 2 ^ bits (i - 1) then none
    else some ⟨q.levels, bits, Function.update q.bounds i (q.bounds (i - 1) + 2 ^ bits (i - 1))⟩
  else some ⟨q.levels, bits, q.bounds⟩

/-- The quantizer `diftopnm` rebuilds from the `nl` bit-width bytes `bs` of the
header, starting at level `i`. -/
def quant_fill : Quantizer → Nat → List Nat → Option Quantizer
  | q, _, [] => some q
  | q, i, b :: bs =>
    match quant_step q i b with
    | none => none
    | some q1 => quant_fill q1 (i + 1) bs

/-- Variable `quant` after the header loop of `diftopnm`: `levels = nl`, `bounds[0] = 0`,
then one round per bit-width byte. -/
def quant_build (u : Uninit) (bs : List Nat) : Option Quantizer :=
  quant_fill ⟨bs.length, u.bits, Function.update u.bounds 0 0⟩ 0 bs

/-- State of the sample loop of `diftopnm`. -/
structure DecState where
  prev : List Int
  red : List Nat
  stream : Stream

/-- Body of the inner loop of `diftopnm` for pixel `i` and channel `c`; the
result of `decode_value` is dropped as in the source, so after a failure
`enc` holds whatever its storage held.  The sum `current` is an `int`, taken
in two's complement; its low byte goes to `red`. -/
def decode_sample (u : Uninit) (q : Quantizer) (chans i c : Nat) (st : DecState) : DecState :=
  let r := decode_value st.stream q
  let enc := match r.1 with
    | some v => v
    | none => u.enc (i * chans + c) % 256
  let current := wrap_int (st.prev.getD c 0 + zigzag_decode enc)
  ⟨st.prev.set c current, st.red.set (i * chans + c) (current % 256).toNat, r.2⟩

/-- Inner loop of `diftopnm`: `c = 0 .. chans-1`. -/
def decode_pixel (u : Uninit) (q : Quantizer) (chans i : Nat) (st : DecState) : DecState :=
  (List.range chans).foldl (fun st c => decode_sample u q chans i c st) st

/-- Outer loop of `diftopnm`: `i = 1 .. wh-1`. -/
def decode_loop (u : Uninit) (q : Quantizer) (chans wh : Nat) (st : DecState) : DecState :=
  (List.range' 1 (wh - 1)).foldl (fun st i => decode_pixel u q chans i st) st

/-- The pixel part of `diftopnm` (lines 385-400): the reader over the
payload `comp`, the seed of `red` and `prev` from `first`, the sample loop and
the shift back to 8 bits.  Every byte of `red` is written before it is read,
so its initial content does not matter. -/
def decode_pixels (u : Uninit) (quant : Quantizer) (chans wh total : Nat)
    (first comp : List Nat) : List Nat :=
  let s := stream_init_read comp
  let red0 := (List.range chans).foldl (fun rd c => rd.set c (first.getD c 0))
    (List.replicate total 0)
  let prev0 : List Int := (List.range chans).foldl
    (fun pv c => pv.set c ((first.getD c 0 : Nat) : Int)) [0, 0, 0]
  let st := decode_loop u quant chans wh ⟨prev0, red0, s⟩
  st.red.map (fun r => (r <<< 1) % 256)

/-- Function `diftopnm` on the content of a DIF file; the output is the
picture handed to `picture_save`.  No result of a read is checked in the
source: a file that ends inside the header leaves header variables unwritten,
and a level count above `NUM_LEVELS` writes past the quantizer arrays; both
are `Run.undef`, as are a size beyond `INT_MAX` and a seed stored outside the
`total` bytes of `red`.  The only `return 1` of the source, on a file that
cannot be opened, lies outside this function of the file's content. -/
def diftopnm_run (u : Uninit) (dif : List Nat) : Run Picture :=
  match dif with
  | m0 :: m1 :: w0 :: w1 :: h0 :: h1 :: nl :: rest =>
    let magic := read_u16 m0 m1
    let chans := if magic = MAGIC_RGB then 3 else 1
    let w := read_u16 w0 w1
    let h := read_u16 h0 h1
    if NUM_LEVELS < nl ∨ rest.length < nl + chans then Run.undef
    else
      match quant_build u (rest.take nl) with
      | none => Run.undef
      | some quant =>
        let total := w * h * chans
        let first := (rest.drop nl).take chans
        let comp := (rest.drop nl).drop chans
        if INT_MAX < total ∨ total < chans then Run.undef
        else
          Run.ret 0 (some ⟨w, h, chans, decode_pixels u quant chans (w * h) total first comp⟩)
  | _ => Run.undef

/-! ## Specification vocabulary for the bit stream -/

/-- Absolute bit position of the cursor. -/
def Stream.pos (s : Stream) : Nat := s.ptr * 8 + s.bitpos

/-- Bit at absolute position `p` of a block, most significant bit of a byte first. -/
def bit_at (buf : List Nat) (p : Nat) : Nat :=
  (buf.getD (p / 8) 0 >>> (7 - p % 8)) &&& 1

/-- Writer invariant: the bit offset is below 8 and the bits of the current
byte from the cursor on are still zero. -/
def WInv (s : Stream) : Prop :=
  s.bitpos < 8 ∧ ∀ j, j + s.bitpos < 8 → (s.buf.getD s.ptr 0).testBit j = false

/-- Value of the `n` bits that start at absolute position `p`, first bit most significant. -/
def bits_val (buf : List Nat) (p : Nat) : Nat → Nat
  | 0 => 0
  | n + 1 => bit_at buf p * 2 ^ n + bits_val buf (p + 1) n

/-- Reader at absolute bit position `p` of `buf`. -/
def reader_at (buf : List Nat) (p : Nat) : Stream := ⟨buf, p / 8, p % 8⟩

/-- Successive `stream_write_bits` calls, one per field `(value, nbits)`,
stopping at the first failure. -/
def write_fields (s : Stream) : List (Nat × Nat) → Bool × Stream
  | [] => (true, s)
  | f :: fs =>
    if (stream_write_bits s f.1 f.2).1 = false then (false, (stream_write_bits s f.1 f.2).2)
    else write_fields (stream_write_bits s f.1 f.2).2 fs

/-- Successive `stream_read_bits` calls, one per width, stopping at the first
failure; the values read are collected in order. -/
def read_fields (s : Stream) : List Nat → Option (List Nat) × Stream
  | [] => (some [], s)
  | n :: ns =>
    match stream_read_bits s n with
    | (none, s1) => (none, s1)
    | (some v, s1) =>
      match read_fields s1 ns with
      | (none, s2) => (none, s2)
      | (some vs, s2) => (some (v :: vs), s2)

/-- The bits of every field of the list lie in `buf` from position `p` on,
each field most significant bit first, one field right after the other. -/
def FieldsAt (buf : List Nat) : Nat → List (Nat × Nat) → Prop
  | _, [] => True
  | p, f :: fs =>
    (∀ k, k < f.2 → bit_at buf (p + k) = (f.1 >>> (f.2 - 1 - k)) &&& 1) ∧ FieldsAt buf (p + f.2) fs

/-- Total width of a list of fields. -/
def fields_width (fs : List (Nat × Nat)) : Nat := (fs.map (fun f => f.2)).sum

/-- Code word of a level: the bits `encode_value` hands to `stream_write_bits`
for `prefix_code(level)` on `prefix_length(level)` bits, first bit first. -/
def code_word (level : Nat) : List Nat :=
  (List.range (prefix_length level)).map
    (fun k => (prefix_code level >>> (prefix_length level - 1 - k)) &&& 1)

/-- Payload `encode_value` writes for `val`. -/
def code_data (val : Nat) : Nat :=
  (((val : Int) - (level_bound (map_value val) : Int)) % 2 ^ 32).toNat

/-- The two fields `encode_value` writes for `val`: prefix, then payload. -/
def code_fields (val : Nat) : List (Nat × Nat) :=
  [(prefix_code (map_value val), prefix_length (map_value val)),
   (code_data val, level_bits (map_value val))]

/-- Number of bits `encode_value` writes for `val`. -/
def code_len (val : Nat) : Nat :=
  prefix_length (map_value val) + level_bits (map_value val)

/-- The quantizer agrees with the tables of the encoder on the four levels. -/
def QOK (q : Quantizer) : Prop :=
  ∀ l, l < NUM_LEVELS → q.bits l = level_bits l ∧ q.bounds l = level_bound l

/-- Zigzag-folded residual the encoder emits as its `j`-th sample: sample
`ch + j` of `R` against sample `j`, the one a pixel earlier in its channel. -/
def resid (R : List Nat) (ch j : Nat) : Nat :=
  zigzag_encode (((R.getD (ch + j) 0 : Nat) : Int) - ((R.getD j 0 : Nat) : Int))

/-- Bit position at which the code of the `n`-th sample starts. -/
def code_off (R : List Nat) (ch : Nat) : Nat → Nat
  | 0 => 0
  | n + 1 => code_off R ch n + code_len (resid R ch n)

/-- State of `prev` inside the pixel loops: channels below `c` hold pixel
`m + 1`, the others still hold pixel `m`. -/
def PrevInv (R : List Nat) (ch m c : Nat) (prev : List Int) : Prop :=
  prev.length = 3
    ∧ (∀ c', c' < c → prev.getD c' 0 = ((R.getD ((m + 1) * ch + c') 0 : Nat) : Int))
    ∧ (∀ c', c ≤ c' → c' < ch → prev.getD c' 0 = ((R.getD (m * ch + c') 0 : Nat) : Int))

/-- Invariant of the sample loop of `pnmtodif` after `m * ch + c` samples. -/
def EncInv (R : List Nat) (ch L m c : Nat) (st : EncState) : Prop :=
  WInv st.stream ∧ st.stream.buf.length = L
    ∧ st.stream.pos = code_off R ch (m * ch + c)
    ∧ (∀ j, j < m * ch + c →
        FieldsAt st.stream.buf (code_off R ch j) (code_fields (resid R ch j)))
    ∧ PrevInv R ch m c st.prev

/-- Invariant of the sample loop of `diftopnm` after `m * ch + c` samples of
a payload `B` that holds the codes of the residuals of `R`. -/
def DecInv (R : List Nat) (ch total : Nat) (B : List Nat) (m c : Nat) (st : DecState) : Prop :=
  st.stream = reader_at B (code_off R ch (m * ch + c)) ∧ st.red.length = total
    ∧ (∀ k, k < ch + (m * ch + c) → st.red.getD k 0 = R.getD k 0)
    ∧ PrevInv R ch m c st.prev

/-- A picture as the specification describes it: dimensions in 1..65535, one
or three channels, `w * h * c` samples, each a byte. -/
def ValidPicture (pic : Picture) : Prop :=
  1 ≤ pic.w ∧ pic.w ≤ 65535 ∧ 1 ≤ pic.h ∧ pic.h ≤ 65535
    ∧ (pic.channels = 1 ∨ pic.channels = 3)
    ∧ pic.pixels.length = pic.w * pic.h * pic.channels
    ∧ ∀ p ∈ pic.pixels, p < 256

/-- The worst-case bit count `total * 11 + 7` from which `pnmtodif` sizes its
buffer is representable in `int`. -/
def FitsInt (pic : Picture) : Prop :=
  pic.w * pic.h * pic.channels * 11 + 7 ≤ INT_MAX

instance (pic : Picture) : Decidable (ValidPicture pic) := by
  unfold ValidPicture; infer_instance

instance (pic : Picture) : Decidable (FitsInt pic) := by
  unfold FitsInt; infer_instance

/-- The 7-bit samples `pnmtodif` works on. -/
def reduced_of (pic : Picture) : List Nat :=
  pic.pixels.map (fun p => (p >>> 1) % 256)

/-- Cursor invariant of the BitCursor: bit offset below 8, byte position not
beyond the bound, and bit offset 0 at the bound. -/
def CursorInv (s : Stream) : Prop :=
  s.bitpos < 8 ∧ s.ptr ≤ s.buf.length ∧ (s.ptr = s.buf.length → s.bitpos = 0)

/-- Writer states: what `stream_init_write` produces and what any sequence of
`stream_write_bits` calls, successful or not, makes of it. -/
inductive Written : Stream → Prop where
  | init (buf : List Nat) : Written (stream_init_write buf)
  | write (s : Stream) (value nbits : Nat) : Written s →
      Written (stream_write_bits s value nbits).2

/-- Reader states: what `stream_init_read` produces and what any sequence of
`stream_read_bits` calls, successful or not, makes of it. -/
inductive Reading : Stream → Prop where
  | init (buf : List Nat) : Reading (stream_init_read buf)
  | read (s : Stream) (nbits : Nat) : Reading s → Reading (stream_read_bits s nbits).2

/-- Bounds as the specification words them: `bound[0] = 0` and
`bound[i] = bound[i-1] + 2 ^ bitwidth[i-1]`, from the bit-width array alone. -/
def spec_bounds (bits : List Nat) : Nat → Nat
  | 0 => 0
  | i + 1 => spec_bounds bits i + 2 ^ bits.getD i 0

/-- The bit widths from which `diftopnm` can compute its bounds in `int`:
every width that is shifted by is below 31 and every bound computed stays
within `INT_MAX`. -/
def widths_ok (bits : List Nat) : Prop :=
  ∀ i, i + 1 < bits.length → bits.getD i 0 < 31 ∧ spec_bounds bits (i + 1) ≤ INT_MAX

/-- Return value of the `encode_value` call the loop body of `pnmtodif` makes
for pixel `i` and channel `c` (the source drops it). -/
def encode_sample_ok (reduced : List Nat) (channels i c : Nat) (st : EncState) : Bool :=
  (encode_value st.stream
    (zigzag_encode (((reduced.getD (i * channels + c) 0 : Nat) : Int) - st.prev.getD c 0))).1

/-- Inner loop of `pnmtodif` with a flag that stays `true` as long as every
`encode_value` call has returned 1. -/
def encode_pixel_ok (reduced : List Nat) (channels i : Nat) (p : EncState × Bool) :
    EncState × Bool :=
  (List.range channels).foldl
    (fun p c => (encode_sample reduced channels i c p.1,
      p.2 && encode_sample_ok reduced channels i c p.1)) p

/-- Outer loop of `pnmtodif` with the same flag. -/
def encode_loop_ok (reduced : List Nat) (channels wh : Nat) (p : EncState × Bool) :
    EncState × Bool :=
  (List.range' 1 (wh - 1)).foldl (fun p i => encode_pixel_ok reduced channels i p) p

/-- Whether every `encode_value` call of the encoder's sample loop, started as
in `encode_payload`, returns 1, that is, whether no `stream_write_bits` call
takes its overflow branch. -/
def encode_writes_ok (reduced : List Nat) (channels wh total : Nat) : Bool :=
  (encode_loop_ok reduced channels wh
    (⟨(List.range channels).foldl
        (fun pv c => pv.set c ((reduced.getD c 0 : Nat) : Int)) [0, 0, 0],
      stream_init_write (List.replicate ((total * 11 + 7) / 8 + 16) 0)⟩, true)).2

/-- Stream states of the claim on the cursor: what `stream_init_write` or
`stream_init_read` produces over any buffer, and what any sequence of
`stream_write_bits` and `stream_read_bits` calls, successful or failing, makes
of it. -/
inductive Reachable : Stream → Prop where
  | init_write (buf : List Nat) : Reachable (stream_init_write buf)
  | init_read (buf : List Nat) : Reachable (stream_init_read buf)
  | write (s : Stream) (value nbits : Nat) : Reachable s →
      Reachable (stream_write_bits s value nbits).2
  | read (s : Stream) (nbits : Nat) : Reachable s → Reachable (stream_read_bits s nbits).2

/-! ## Bit stream: writing and reading back -/

theorem bit_at_eq_testBit (buf : List Nat) (p : Nat) :
    bit_at buf p = ((buf.getD (p / 8) 0).testBit (7 - p % 8)).toNat := by
  unfold bit_at
  rw [Nat.toNat_testBit, Nat.and_one_is_mod, Nat.shiftRight_eq_div_pow]

theorem testBit_le_one (b m : Nat) (hb : b ≤ 1) : b.testBit m = (decide (b = 1) && decide (m = 0)) := by
  interval_cases b
  · simp
  · cases m with
    | zero => simp
    | succ k => simp [Nat.testBit_succ]

theorem getD_set_self (l : List Nat) (i x : Nat) (h : i < l.length) : (l.set i x).getD i 0 = x := by
  simp [List.getD_eq_getElem?_getD, List.getElem?_set, h]

theorem getD_set_ne (l : List Nat) (i j x : Nat) (h : i ≠ j) : (l.set i x).getD j 0 = l.getD j 0 := by
  simp [List.getD_eq_getElem?_getD, List.getElem?_set, h]

theorem put_byte_testBit (x bit bp j : Nat) (hb : bit ≤ 1) (hj : j < 8) :
    ((x ||| (bit <<< (7 - bp))) % 256).testBit j
      = (x.testBit j || (decide (bit = 1) && decide (j = 7 - bp))) := by
  have h256 : (256 : Nat) = 2 ^ 8 := by norm_num
  rw [h256, Nat.testBit_mod_two_pow, Nat.testBit_or, Nat.testBit_shiftLeft, testBit_le_one bit _ hb]
  simp only [hj, decide_True, Bool.true_and]
  by_cases h1 : bit = 1 <;> by_cases h2 : j = 7 - bp <;> simp [h1, h2]
  omega

theorem put_bit_length (s : Stream) (bit : Nat) : (put_bit s bit).buf.length = s.buf.length := by
  unfold put_bit
  simp only
  split_ifs <;> simp

theorem put_bit_pos (s : Stream) (bit : Nat) : (put_bit s bit).pos = s.pos + 1 := by
  unfold put_bit Stream.pos
  simp only
  split_ifs <;> simp <;> omega

theorem put_bit_getD_lt (s : Stream) (bit i : Nat) (h : i < s.ptr) :
    (put_bit s bit).buf.getD i 0 = s.buf.getD i 0 := by
  unfold put_bit
  simp only
  split_ifs <;> simp only [] <;> repeat rw [getD_set_ne _ _ _ _ (by omega)]

theorem put_bit_getD_ptr (s : Stream) (bit : Nat) (h : s.ptr < s.buf.length) :
    (put_bit s bit).buf.getD s.ptr 0
      = (s.buf.getD s.ptr 0 ||| (bit <<< (7 - s.bitpos))) % 256 := by
  unfold put_bit
  simp only
  split_ifs <;> simp only [] <;> (try rw [getD_set_ne _ _ _ _ (by omega)]) <;> rw [getD_set_self _ _ _ h]

theorem put_bit_WInv (s : Stream) (bit : Nat) (hs : WInv s) (hb : bit ≤ 1) (h : s.ptr < s.buf.length) :
    WInv (put_bit s bit) := by
  obtain ⟨h8, hz⟩ := hs
  by_cases h7 : s.bitpos + 1 = 8
  · have e : put_bit s bit = ⟨(if s.ptr + 1 < (s.buf.set s.ptr ((s.buf.getD s.ptr 0 ||| (bit <<< (7 - s.bitpos))) % 256)).length
        then (s.buf.set s.ptr ((s.buf.getD s.ptr 0 ||| (bit <<< (7 - s.bitpos))) % 256)).set (s.ptr + 1) 0
        else s.buf.set s.ptr ((s.buf.getD s.ptr 0 ||| (bit <<< (7 - s.bitpos))) % 256)), s.ptr + 1, 0⟩ := by
      unfold put_bit; simp only [h7, if_true]
    rw [e]
    refine ⟨by simp, ?_⟩
    intro j _
    simp only
    split_ifs with hl
    · rw [getD_set_self _ _ _ (by simpa using hl)]; simp
    · have : s.buf.length ≤ s.ptr + 1 := by simpa using hl
      simp [List.getD_eq_getElem?_getD, List.getElem?_set]
      rw [List.getElem?_eq_none (by omega)]; simp
  · have e : put_bit s bit = ⟨s.buf.set s.ptr ((s.buf.getD s.ptr 0 ||| (bit <<< (7 - s.bitpos))) % 256), s.ptr, s.bitpos + 1⟩ := by
      unfold put_bit; simp only [h7, if_false]
    rw [e]
    refine ⟨by simp; omega, ?_⟩
    intro j hj
    simp only at hj ⊢
    rw [getD_set_self _ _ _ h, put_byte_testBit _ _ _ _ hb (by omega), hz j (by omega)]
    have : j ≠ 7 - s.bitpos := by omega
    simp [this]

theorem put_bit_bit_at_lt (s : Stream) (bit k : Nat) (hs : WInv s) (hb : bit ≤ 1)
    (h : s.ptr < s.buf.length) (hk : k < s.pos) :
    bit_at (put_bit s bit).buf k = bit_at s.buf k := by
  obtain ⟨h8, hz⟩ := hs
  unfold Stream.pos at hk
  rw [bit_at_eq_testBit, bit_at_eq_testBit]
  by_cases hlt : k / 8 < s.ptr
  · rw [put_bit_getD_lt _ _ _ hlt]
  · have hk8 : k / 8 = s.ptr := by omega
    rw [hk8, put_bit_getD_ptr _ _ h, put_byte_testBit _ _ _ _ hb (by omega)]
    have : 7 - k % 8 ≠ 7 - s.bitpos := by omega
    simp [this]

theorem put_bit_bit_at_pos (s : Stream) (bit : Nat) (hs : WInv s) (hb : bit ≤ 1)
    (h : s.ptr < s.buf.length) :
    bit_at (put_bit s bit).buf s.pos = bit := by
  obtain ⟨h8, hz⟩ := hs
  have h1 : s.pos / 8 = s.ptr := by unfold Stream.pos; omega
  have h2 : s.pos % 8 = s.bitpos := by unfold Stream.pos; omega
  rw [bit_at_eq_testBit, h1, h2, put_bit_getD_ptr _ _ h, put_byte_testBit _ _ _ _ hb (by omega),
    hz _ (by omega)]
  interval_cases bit <;> simp

theorem bit_at_le_one (buf : List Nat) (p : Nat) : bit_at buf p ≤ 1 := by
  unfold bit_at
  rw [Nat.and_one_is_mod]; omega

theorem bits_val_lt (buf : List Nat) (n : Nat) : ∀ p, bits_val buf p n < 2 ^ n := by
  induction n with
  | zero => intro p; simp [bits_val]
  | succ n ih =>
    intro p
    have h1 := bit_at_le_one buf p
    have h2 := ih (p + 1)
    have h3 : bit_at buf p * 2 ^ n ≤ 1 * 2 ^ n := Nat.mul_le_mul_right _ h1
    simp only [bits_val, pow_succ]
    omega

theorem stream_write_bits_spec (v : Nat) (n : Nat) : ∀ s : Stream, WInv s →
    s.pos + n ≤ 8 * s.buf.length →
    (stream_write_bits s v n).1 = true ∧ WInv (stream_write_bits s v n).2
      ∧ (stream_write_bits s v n).2.buf.length = s.buf.length
      ∧ (stream_write_bits s v n).2.pos = s.pos + n
      ∧ (∀ k, k < s.pos → bit_at (stream_write_bits s v n).2.buf k = bit_at s.buf k)
      ∧ (∀ k, k < n → bit_at (stream_write_bits s v n).2.buf (s.pos + k) = (v >>> (n - 1 - k)) &&& 1) := by
  induction n with
  | zero =>
    intro s hs _
    simp [stream_write_bits, hs]
  | succ n ih =>
    intro s hs hfit
    have hlt : s.ptr < s.buf.length := by
      have := hs.1; unfold Stream.pos at hfit; omega
    have hb : (v >>> n) &&& 1 ≤ 1 := by rw [Nat.and_one_is_mod]; omega
    have e : stream_write_bits s v (n + 1) = stream_write_bits (put_bit s ((v >>> n) &&& 1)) v n := by
      simp [stream_write_bits, hlt]
    have hp := put_bit_pos s ((v >>> n) &&& 1)
    have hl := put_bit_length s ((v >>> n) &&& 1)
    obtain ⟨i1, i2, i3, i4, i5, i6⟩ := ih (put_bit s ((v >>> n) &&& 1))
      (put_bit_WInv s _ hs hb hlt) (by rw [hp, hl]; omega)
    rw [e]
    refine ⟨i1, i2, by rw [i3, hl], by rw [i4, hp]; omega, ?_, ?_⟩
    · intro k hk
      rw [i5 k (by omega), put_bit_bit_at_lt s _ k hs hb hlt hk]
    · intro k hk
      cases k with
      | zero =>
        rw [Nat.add_zero, i5 _ (by omega), put_bit_bit_at_pos s _ hs hb hlt]
        simp
      | succ k =>
        have := i6 k (by omega)
        rw [hp] at this
        rw [show s.pos + (k + 1) = s.pos + 1 + k by omega, this]
        congr 2
        omega

theorem advance_bit_eq (s : Stream) (h : s.bitpos < 8) :
    advance_bit s = ⟨s.buf, (s.pos + 1) / 8, (s.pos + 1) % 8⟩ := by
  unfold advance_bit Stream.pos
  split_ifs with h7
  · congr 1 <;> omega
  · congr 1 <;> omega

theorem shl_or_bit (r b : Nat) (hb : b ≤ 1) : (r <<< 1) ||| b = 2 * r + b := by
  rw [Nat.shiftLeft_eq]
  have := Nat.mul_add_lt_is_or (i := 1) (b := b) (by omega) r
  simp only [pow_one] at this ⊢
  rw [Nat.mul_comm, this]

theorem stream_read_loop_spec (buf : List Nat) (n : Nat) : ∀ p r : Nat,
    p + n ≤ 8 * buf.length → (r + 1) * 2 ^ n ≤ 2 ^ 32 →
    stream_read_loop (reader_at buf p) r n
      = (some (r * 2 ^ n + bits_val buf p n), reader_at buf (p + n)) := by
  induction n with
  | zero => intro p r _ _; simp [stream_read_loop, bits_val]
  | succ n ih =>
    intro p r hfit hr
    have hlt : p / 8 < buf.length := by omega
    have hb := bit_at_le_one buf p
    have hadv : advance_bit (reader_at buf p) = reader_at buf (p + 1) := by
      rw [advance_bit_eq _ (by unfold reader_at; simp; omega)]
      unfold reader_at Stream.pos
      simp only
      congr 1 <;> omega
    have hbit : ((reader_at buf p).buf.getD (reader_at buf p).ptr 0 >>> (7 - (reader_at buf p).bitpos)) &&& 1
        = bit_at buf p := rfl
    have hnot : ¬ (reader_at buf p).buf.length ≤ (reader_at buf p).ptr := by
      unfold reader_at; simp; omega
    have hpow : 2 ^ (n + 1) = 2 * 2 ^ n := by rw [pow_succ]; ring
    have hpos : 0 < 2 ^ n := Nat.two_pow_pos n
    have hr' : (2 * r + bit_at buf p + 1) * 2 ^ n ≤ 2 ^ 32 := by
      have : (2 * r + bit_at buf p + 1) * 2 ^ n ≤ (2 * r + 2) * 2 ^ n :=
        Nat.mul_le_mul_right _ (by omega)
      have h2 : (2 * r + 2) * 2 ^ n = (r + 1) * 2 ^ (n + 1) := by rw [hpow]; ring
      omega
    have hsmall : 2 * r + bit_at buf p < 2 ^ 32 := by
      have : (2 * r + bit_at buf p + 1) * 1 ≤ (2 * r + bit_at buf p + 1) * 2 ^ n :=
        Nat.mul_le_mul_left _ hpos
      omega
    rw [stream_read_loop]
    simp only [hnot, if_false, hbit, hadv, shl_or_bit _ _ hb, Nat.mod_eq_of_lt hsmall]
    rw [ih (p + 1) _ (by omega) hr', show p + 1 + n = p + (n + 1) by omega]
    simp only [bits_val, hpow]
    congr 2
    ring

theorem stream_read_bits_spec (buf : List Nat) (p n : Nat) (hn : n ≤ 32)
    (hfit : p + n ≤ 8 * buf.length) :
    stream_read_bits (reader_at buf p) n = (some (bits_val buf p n), reader_at buf (p + n)) := by
  unfold stream_read_bits
  rw [stream_read_loop_spec buf n p 0 hfit]
  · simp
  · simpa using Nat.pow_le_pow_right (by norm_num : 0 < 2) hn

theorem bits_val_eq_mod (buf : List Nat) (v : Nat) (n : Nat) : ∀ p,
    (∀ k, k < n → bit_at buf (p + k) = (v >>> (n - 1 - k)) &&& 1) →
    bits_val buf p n = v % 2 ^ n := by
  induction n with
  | zero => intro p _; simp [bits_val, Nat.mod_one]
  | succ n ih =>
    intro p h
    have h0 := h 0 (by omega)
    simp only [Nat.add_zero, Nat.add_sub_cancel, Nat.sub_zero] at h0
    have ht := ih (p + 1) (fun k hk => by
      have := h (k + 1) (by omega)
      rw [show p + (k + 1) = p + 1 + k by omega] at this
      rw [this]; congr 2; omega)
    simp only [bits_val, h0, ht, Nat.and_one_is_mod, Nat.shiftRight_eq_div_pow]
    rw [Nat.mod_pow_succ]
    ring

theorem stream_init_write_WInv (buf : List Nat) : WInv (stream_init_write buf) := by
  unfold WInv stream_init_write
  refine ⟨by simp, ?_⟩
  intro j _
  simp only
  split_ifs with h
  · rw [getD_set_self _ _ _ h]; simp
  · have : buf = [] := by
      cases buf with
      | nil => rfl
      | cons a t => simp at h
    simp [this]

theorem stream_init_write_length (buf : List Nat) :
    (stream_init_write buf).buf.length = buf.length := by
  unfold stream_init_write
  split_ifs <;> simp

theorem stream_init_write_pos (buf : List Nat) : (stream_init_write buf).pos = 0 := rfl

theorem stream_init_read_eq (buf : List Nat) : stream_init_read buf = reader_at buf 0 := rfl

theorem write_fields_spec : ∀ (fs : List (Nat × Nat)) (s : Stream), WInv s →
    s.pos + fields_width fs ≤ 8 * s.buf.length →
    (write_fields s fs).1 = true ∧ WInv (write_fields s fs).2
      ∧ (write_fields s fs).2.buf.length = s.buf.length
      ∧ (write_fields s fs).2.pos = s.pos + fields_width fs
      ∧ (∀ k, k < s.pos → bit_at (write_fields s fs).2.buf k = bit_at s.buf k)
      ∧ FieldsAt (write_fields s fs).2.buf s.pos fs := by
  intro fs
  induction fs with
  | nil => intro s hs _; simp [write_fields, fields_width, FieldsAt, hs]
  | cons f fs ih =>
    intro s hs hfit
    have hw : fields_width (f :: fs) = f.2 + fields_width fs := by simp [fields_width]
    rw [hw] at hfit
    obtain ⟨a1, a2, a3, a4, a5, a6⟩ := stream_write_bits_spec f.1 f.2 s hs (by omega)
    obtain ⟨b1, b2, b3, b4, b5, b6⟩ := ih (stream_write_bits s f.1 f.2).2 a2 (by rw [a3, a4]; omega)
    have e : write_fields s (f :: fs) = write_fields (stream_write_bits s f.1 f.2).2 fs := by
      simp [write_fields, a1]
    rw [e, hw]
    refine ⟨b1, b2, by rw [b3, a3], by rw [b4, a4]; omega, ?_, ?_, ?_⟩
    · intro k hk
      rw [b5 k (by rw [a4]; omega), a5 k hk]
    · intro k hk
      rw [b5 (s.pos + k) (by rw [a4]; omega), a6 k hk]
    · rw [a4] at b6; exact b6

theorem read_fields_spec (buf : List Nat) : ∀ (fs : List (Nat × Nat)) (p : Nat),
    (∀ f ∈ fs, f.2 ≤ 32) → p + fields_width fs ≤ 8 * buf.length → FieldsAt buf p fs →
    read_fields (reader_at buf p) (fs.map (fun f => f.2))
      = (some (fs.map (fun f => f.1 % 2 ^ f.2)), reader_at buf (p + fields_width fs)) := by
  intro fs
  induction fs with
  | nil => intro p _ _ _; simp [read_fields, fields_width]
  | cons f fs ih =>
    intro p h32 hfit hat
    have hw : fields_width (f :: fs) = f.2 + fields_width fs := by simp [fields_width]
    rw [hw] at hfit
    have hr := stream_read_bits_spec buf p f.2 (h32 f (by simp)) (by omega)
    have ht := ih (p + f.2) (fun g hg => h32 g (by simp [hg])) (by omega) hat.2
    simp only [List.map_cons, read_fields, hr, ht, hw, bits_val_eq_mod buf f.1 f.2 p hat.1]
    congr 2
    omega

/-! ## Prefix code table and the concrete scenario -/

theorem code_word_table :
    code_word 0 = [0] ∧ code_word 1 = [1, 0] ∧ code_word 2 = [1, 1, 0] ∧ code_word 3 = [1, 1, 1] := by
  decide

/-- C8: the four prefix code words, 0, 10, 110 and 111 as written by
`encode_value` from `prefix_code` and `prefix_length`, are pairwise distinct
and none is a prefix of another. -/
theorem prefix_codes_prefix_free (i j : Nat) (hi : i < NUM_LEVELS) (hj : j < NUM_LEVELS)
    (hij : i ≠ j) :
    code_word i = [[0], [1, 0], [1, 1, 0], [1, 1, 1]].getD i []
      ∧ code_word i ≠ code_word j ∧ ¬ (code_word i <+: code_word j) := by
  unfold NUM_LEVELS at hi hj
  interval_cases i <;> interval_cases j <;> first | exact absurd rfl hij | decide

theorem prefix_codes_prefix_free_witness :
    code_word 2 = [[0], [1, 0], [1, 1, 0], [1, 1, 1]].getD 2 []
      ∧ code_word 2 ≠ code_word 3 ∧ ¬ (code_word 2 <+: code_word 3) :=
  prefix_codes_prefix_free 2 3 (by decide) (by decide) (by decide)

/-- C5: the grayscale 1x2 picture with pixels 10, 12 encodes to the 13 bytes
FF D1 01 00 02 00 04 01 02 04 08 05 80. -/
theorem encode_scenario :
    pnmtodif_run ⟨1, 2, 1, [10, 12]⟩
      = Run.ret 0 (some [0xFF, 0xD1, 0x01, 0x00, 0x02, 0x00, 0x04, 0x01, 0x02, 0x04, 0x08, 0x05, 0x80]) := by
  decide

/-! ## Quantizer code: one value -/

theorem map_value_lt (e : Nat) : map_value e < 4 := by
  unfold map_value; split_ifs <;> omega

theorem code_data_spec (e : Nat) (he : e < 256) :
    code_data e + level_bound (map_value e) = e
      ∧ code_data e < 2 ^ level_bits (map_value e) := by
  unfold code_data map_value
  split_ifs <;> simp [level_bound, level_bits] <;> omega

theorem code_len_le (e : Nat) : code_len e ≤ 11 := by
  unfold code_len map_value
  split_ifs <;> simp [prefix_length, level_bits]

theorem code_len_pos (e : Nat) : 2 ≤ code_len e := by
  unfold code_len map_value
  split_ifs <;> simp [prefix_length, level_bits]

theorem encode_value_eq_write_fields (s : Stream) (e : Nat) :
    encode_value s e = write_fields s (code_fields e) := by
  unfold encode_value code_fields code_data
  simp only [write_fields]
  split_ifs with h1 h2 <;> first | rfl | skip
  · exact Prod.ext (by simpa using h2) rfl
  · exact Prod.ext (by simpa using h2) rfl

theorem encode_value_spec (s : Stream) (e : Nat) (hs : WInv s)
    (hfit : s.pos + code_len e ≤ 8 * s.buf.length) :
    (encode_value s e).1 = true ∧ WInv (encode_value s e).2
      ∧ (encode_value s e).2.buf.length = s.buf.length
      ∧ (encode_value s e).2.pos = s.pos + code_len e
      ∧ (∀ k, k < s.pos → bit_at (encode_value s e).2.buf k = bit_at s.buf k)
      ∧ FieldsAt (encode_value s e).2.buf s.pos (code_fields e) := by
  have hw : fields_width (code_fields e) = code_len e := by
    simp [fields_width, code_fields, code_len]
  rw [encode_value_eq_write_fields, ← hw]
  exact write_fields_spec (code_fields e) s hs (by rw [hw]; exact hfit)

theorem read_one_bit (buf : List Nat) (p : Nat) (h : p + 1 ≤ 8 * buf.length) :
    stream_read_bits (reader_at buf p) 1 = (some (bit_at buf p), reader_at buf (p + 1)) := by
  rw [stream_read_bits_spec buf p 1 (by norm_num) h]
  simp [bits_val]

theorem decode_value_spec (buf : List Nat) (q : Quantizer) (p e : Nat) (hq : QOK q)
    (he : e < 256) (hfit : p + code_len e ≤ 8 * buf.length)
    (hat : FieldsAt buf p (code_fields e)) :
    decode_value (reader_at buf p) q = (some e, reader_at buf (p + code_len e)) := by
  obtain ⟨hd1, hd2⟩ := code_data_spec e he
  obtain ⟨hpre, hdat, -⟩ := hat
  simp only at hpre hdat
  have hl := map_value_lt e
  have hqb := hq (map_value e) hl
  have hread : stream_read_bits (reader_at buf (p + prefix_length (map_value e)))
      (q.bits (map_value e))
      = (some (code_data e), reader_at buf (p + code_len e)) := by
    rw [hqb.1, stream_read_bits_spec buf _ _ (by
        generalize map_value e = l at hl ⊢; interval_cases l <;> simp [level_bits])
      (by unfold code_len at hfit; omega),
      bits_val_eq_mod buf (code_data e) _ _ hdat, Nat.mod_eq_of_lt hd2]
    unfold code_len; rw [Nat.add_assoc]
  have hval : (code_data e + q.bounds (map_value e)) % 256 = e := by
    rw [hqb.2, hd1, Nat.mod_eq_of_lt he]
  generalize hlv : map_value e = l at *
  unfold code_len at hfit
  rw [hlv] at hfit
  interval_cases l
  · have b0 := hpre 0 (by simp [prefix_length])
    simp [prefix_length, prefix_code] at b0 hread hfit
    unfold decode_value
    rw [read_one_bit buf p (by omega)]
    simp only [b0, if_true, hread, hval]
  · have b0 := hpre 0 (by simp [prefix_length])
    have b1 := hpre 1 (by simp [prefix_length])
    simp [prefix_length, prefix_code] at b0 b1 hread hfit
    unfold decode_value
    rw [read_one_bit buf p (by omega)]
    simp only [b0, one_ne_zero, if_false]
    rw [read_one_bit buf (p + 1) (by omega)]
    simp only [b1, if_true, hread, hval]
  · have b0 := hpre 0 (by simp [prefix_length])
    have b1 := hpre 1 (by simp [prefix_length])
    have b2 := hpre 2 (by simp [prefix_length])
    simp [prefix_length, prefix_code] at b0 b1 b2 hread hfit
    unfold decode_value
    rw [read_one_bit buf p (by omega)]
    simp only [b0, one_ne_zero, if_false]
    rw [read_one_bit buf (p + 1) (by omega)]
    simp only [b1, one_ne_zero, if_false]
    rw [read_one_bit buf (p + 1 + 1) (by omega)]
    simp only [b2, if_true, hread, hval]
  · have b0 := hpre 0 (by simp [prefix_length])
    have b1 := hpre 1 (by simp [prefix_length])
    have b2 := hpre 2 (by simp [prefix_length])
    simp [prefix_length, prefix_code] at b0 b1 b2 hread hfit
    unfold decode_value
    rw [read_one_bit buf p (by omega)]
    simp only [b0, one_ne_zero, if_false]
    rw [read_one_bit buf (p + 1) (by omega)]
    simp only [b1, one_ne_zero, if_false]
    rw [read_one_bit buf (p + 1 + 1) (by omega)]
    simp only [b2, one_ne_zero, if_false, hread, hval]

/-! ## Round trips of single values and of field lists -/

theorem reader_at_pos (buf : List Nat) (p : Nat) : (reader_at buf p).pos = p := by
  unfold reader_at Stream.pos; simp only; omega

theorem quant_build_std (u : Uninit) :
    ∃ q, quant_build u [1, 2, 4, 8] = some q ∧ QOK q :=
  ⟨_, rfl, fun l hl => by
    unfold NUM_LEVELS at hl
    interval_cases l <;> exact ⟨rfl, rfl⟩⟩

/-- C2: every byte written by `encode_value` into a fresh stream of at least
two bytes is read back by `decode_value`, with the quantizer rebuilt from the
bit-widths 1, 2, 4, 8, as the same byte, the reader ending where the writer
ended. -/
theorem quantizer_roundtrip (v : Nat) (hv : v < 256) (buf : List Nat)
    (hbuf : 2 ≤ buf.length) (u : Uninit) :
    ∃ q, quant_build u [1, 2, 4, 8] = some q
      ∧ (encode_value (stream_init_write buf) v).1 = true
      ∧ (decode_value (stream_init_read (encode_value (stream_init_write buf) v).2.buf) q).1
          = some v
      ∧ (decode_value (stream_init_read (encode_value (stream_init_write buf) v).2.buf) q).2.pos
          = (encode_value (stream_init_write buf) v).2.pos := by
  obtain ⟨q, hq, hok⟩ := quant_build_std u
  have hlen := code_len_le v
  have hl0 := stream_init_write_length buf
  obtain ⟨a1, -, a3, a4, -, a6⟩ := encode_value_spec (stream_init_write buf) v
    (stream_init_write_WInv buf) (by rw [stream_init_write_pos, hl0]; omega)
  rw [stream_init_write_pos] at a4 a6
  have hd := decode_value_spec (encode_value (stream_init_write buf) v).2.buf q 0 v hok hv
    (by rw [a3, hl0]; omega) a6
  refine ⟨q, hq, a1, ?_, ?_⟩
  · rw [stream_init_read_eq, hd]
  · rw [stream_init_read_eq, hd, a4, reader_at_pos]

theorem quantizer_roundtrip_witness :
    ∃ q, quant_build ⟨fun _ => 0, fun _ => 0, fun _ => 0⟩ [1, 2, 4, 8] = some q
      ∧ (encode_value (stream_init_write [0, 0]) 200).1 = true
      ∧ (decode_value (stream_init_read (encode_value (stream_init_write [0, 0]) 200).2.buf) q).1
          = some 200
      ∧ (decode_value (stream_init_read (encode_value (stream_init_write [0, 0]) 200).2.buf) q).2.pos
          = (encode_value (stream_init_write [0, 0]) 200).2.pos :=
  quantizer_roundtrip 200 (by decide) [0, 0] (by decide) _

/-- C3: fields written in order by `stream_write_bits` into a fresh writer are
read back in order by `stream_read_bits` from the resulting block, each as its
value modulo `2 ^ n`. -/
theorem stream_fields_roundtrip (buf : List Nat) (fields : List (Nat × Nat))
    (hn : ∀ f ∈ fields, f.2 ≤ 32) (hfit : fields_width fields ≤ 8 * buf.length) :
    (write_fields (stream_init_write buf) fields).1 = true
      ∧ (read_fields (stream_init_read (write_fields (stream_init_write buf) fields).2.buf)
          (fields.map (fun f => f.2))).1 = some (fields.map (fun f => f.1 % 2 ^ f.2)) := by
  obtain ⟨a1, -, a3, -, -, a6⟩ := write_fields_spec fields (stream_init_write buf)
    (stream_init_write_WInv buf)
    (by rw [stream_init_write_pos, stream_init_write_length]; omega)
  rw [stream_init_write_pos] at a6
  refine ⟨a1, ?_⟩
  rw [stream_init_read_eq, read_fields_spec _ fields 0 hn
    (by rw [a3, stream_init_write_length]; omega) a6]

theorem stream_fields_roundtrip_witness :
    (write_fields (stream_init_write [255, 255, 255]) [(5, 3), (1000, 10), (3, 0), (77, 7)]).1 = true
      ∧ (read_fields (stream_init_read
            (write_fields (stream_init_write [255, 255, 255]) [(5, 3), (1000, 10), (3, 0), (77, 7)]).2.buf)
          ([(5, 3), (1000, 10), (3, 0), (77, 7)].map (fun f => f.2))).1
        = some ([(5, 3), (1000, 10), (3, 0), (77, 7)].map (fun f => f.1 % 2 ^ f.2)) :=
  stream_fields_roundtrip [255, 255, 255] [(5, 3), (1000, 10), (3, 0), (77, 7)]
    (by decide) (by decide)

set_option maxRecDepth 100000 in
theorem zigzag_roundtrip (d : Int) (h1 : -127 ≤ d) (h2 : d ≤ 127) :
    zigzag_decode (zigzag_encode d) = d := by
  have key : ∀ k : Fin 255, zigzag_decode (zigzag_encode ((k : Nat) - 127)) = (k : Nat) - 127 := by
    decide
  have := key ⟨(d + 127).toNat, by omega⟩
  simp only at this
  rw [Int.toNat_of_nonneg (by omega)] at this
  simpa using this

theorem zigzag_encode_lt (d : Int) : zigzag_encode d < 256 := by
  unfold zigzag_encode
  split_ifs <;> omega

/-! ## Sample loop of the encoder -/

theorem code_off_le (R : List Nat) (ch n : Nat) : code_off R ch n ≤ 11 * n := by
  induction n with
  | zero => simp [code_off]
  | succ n ih =>
    have := code_len_le (resid R ch n)
    simp only [code_off]; omega

theorem code_off_mono (R : List Nat) (ch a b : Nat) (h : a ≤ b) :
    code_off R ch a ≤ code_off R ch b := by
  induction b with
  | zero =>
    have : a = 0 := by omega
    rw [this]
  | succ b ih =>
    by_cases hab : a = b + 1
    · rw [hab]
    · have := ih (by omega)
      simp only [code_off]; omega

theorem FieldsAt_congr (b b' : List Nat) (q : Nat)
    (hb : ∀ k, k < q → bit_at b' k = bit_at b k) :
    ∀ (fs : List (Nat × Nat)) (p : Nat), p + fields_width fs ≤ q →
      FieldsAt b p fs → FieldsAt b' p fs := by
  intro fs
  induction fs with
  | nil => intro p _ _; trivial
  | cons f fs ih =>
    intro p hp hat
    have hw : fields_width (f :: fs) = f.2 + fields_width fs := by simp [fields_width]
    rw [hw] at hp
    refine ⟨fun k hk => ?_, ih (p + f.2) (by omega) hat.2⟩
    rw [hb (p + k) (by omega)]
    exact hat.1 k hk

theorem code_fields_width (e : Nat) : fields_width (code_fields e) = code_len e := by
  simp [fields_width, code_fields, code_len]

theorem getD_set_int (l : List Int) (i j : Nat) (x : Int) :
    (l.set i x).getD j 0 = if i = j ∧ i < l.length then x else l.getD j 0 := by
  simp only [List.getD_eq_getElem?_getD, List.getElem?_set]
  by_cases h : i = j
  · subst h
    by_cases h2 : i < l.length
    · simp [h2]
    · simp [h2, List.getElem?_eq_none (Nat.le_of_not_lt h2)]
  · simp [h]

theorem PrevInv_step (R : List Nat) (ch m c : Nat) (prev : List Int)
    (h : PrevInv R ch m c prev) (hc : c < ch) (h3 : ch ≤ 3) :
    PrevInv R ch m (c + 1) (prev.set c ((R.getD ((m + 1) * ch + c) 0 : Nat) : Int)) := by
  obtain ⟨hl, h1, h2⟩ := h
  refine ⟨by simp [hl], ?_, ?_⟩
  · intro c' hc'
    rw [getD_set_int]
    by_cases e : c = c'
    · subst e; simp [hl]; omega
    · simp only [e, false_and, if_false]
      exact h1 c' (by omega)
  · intro c' hc' hc''
    rw [getD_set_int]
    have e : ¬ c = c' := by omega
    simp only [e, false_and, if_false]
    exact h2 c' (by omega) hc''

theorem PrevInv_next (R : List Nat) (ch m : Nat) (prev : List Int)
    (h : PrevInv R ch m ch prev) : PrevInv R ch (m + 1) 0 prev :=
  ⟨h.1, fun _ hc => absurd hc (Nat.not_lt_zero _), fun c' _ hc => h.2.1 c' hc⟩

theorem encode_sample_inv (R : List Nat) (ch L wh m c : Nat) (st : EncState)
    (h : EncInv R ch L m c st) (hc : c < ch) (h3 : ch ≤ 3) (hm : m + 1 < wh)
    (hcap : 11 * ((wh - 1) * ch) ≤ 8 * L) :
    EncInv R ch L m (c + 1) (encode_sample R ch (m + 1) c st) := by
  obtain ⟨hw, hl, hp, hf, hprev⟩ := h
  have hmul : (m + 1) * ch ≤ (wh - 1) * ch := Nat.mul_le_mul_right _ (by omega)
  have hsm : (m + 1) * ch = m * ch + ch := by ring
  have henc : zigzag_encode (((R.getD ((m + 1) * ch + c) 0 : Nat) : Int) - st.prev.getD c 0)
      = resid R ch (m * ch + c) := by
    unfold resid
    rw [hprev.2.2 c (Nat.le_refl _) hc, show ch + (m * ch + c) = (m + 1) * ch + c by omega]
  have hoff := code_off_le R ch (m * ch + c)
  have hlen := code_len_le (resid R ch (m * ch + c))
  obtain ⟨-, a2, a3, a4, a5, a6⟩ := encode_value_spec st.stream (resid R ch (m * ch + c)) hw
    (by rw [hp, hl]; omega)
  unfold encode_sample
  simp only [henc]
  refine ⟨a2, by rw [a3, hl], ?_, ?_, PrevInv_step R ch m c st.prev hprev hc h3⟩
  · rw [a4, hp, show m * ch + (c + 1) = (m * ch + c) + 1 by omega]
    simp only [code_off]
  · intro j hj
    by_cases e : j = m * ch + c
    · rw [e, ← hp]; exact a6
    · have hj' : j < m * ch + c := by omega
      refine FieldsAt_congr st.stream.buf _ st.stream.pos a5 _ _ ?_ (hf j hj')
      rw [code_fields_width, hp]
      have := code_off_mono R ch (j + 1) (m * ch + c) (by omega)
      simp only [code_off] at this
      exact this

theorem encode_pixel_inv (R : List Nat) (ch L wh m : Nat) (st : EncState)
    (h : EncInv R ch L m 0 st) (h3 : ch ≤ 3) (hm : m + 1 < wh)
    (hcap : 11 * ((wh - 1) * ch) ≤ 8 * L) :
    EncInv R ch L (m + 1) 0 (encode_pixel R ch (m + 1) st) := by
  have key : ∀ c, c ≤ ch → EncInv R ch L m c
      ((List.range c).foldl (fun st c => encode_sample R ch (m + 1) c st) st) := by
    intro c
    induction c with
    | zero => intro _; simpa using h
    | succ c ih =>
      intro hc
      rw [List.range_succ, List.foldl_append]
      exact encode_sample_inv R ch L wh m c _ (ih (by omega)) (by omega) h3 hm hcap
  obtain ⟨a1, a2, a3, a4, a5⟩ := key ch (Nat.le_refl _)
  have e : (m + 1) * ch + 0 = m * ch + ch := by ring
  exact ⟨a1, a2, by rw [e]; exact a3, by rw [e]; exact a4, PrevInv_next R ch m _ a5⟩

theorem encode_loop_inv (R : List Nat) (ch L wh : Nat) (st : EncState)
    (h : EncInv R ch L 0 0 st) (h3 : ch ≤ 3) (hcap : 11 * ((wh - 1) * ch) ≤ 8 * L) :
    EncInv R ch L (wh - 1) 0 (encode_loop R ch wh st) := by
  have key : ∀ k, k ≤ wh - 1 → EncInv R ch L k 0
      ((List.range' 1 k).foldl (fun st i => encode_pixel R ch i st) st) := by
    intro k
    induction k with
    | zero => intro _; simpa using h
    | succ k ih =>
      intro hk
      rw [List.range'_concat, List.foldl_append]
      simp only [List.foldl_cons, List.foldl_nil]
      rw [show 1 + 1 * k = k + 1 by omega]
      exact encode_pixel_inv R ch L wh k _ (ih (by omega)) h3 (by omega) hcap
  exact key (wh - 1) (Nat.le_refl _)

/-! ## Sample loop of the decoder -/

theorem wrap_int_of_small (x : Int) (h0 : 0 ≤ x) (h1 : x ≤ 255) : wrap_int x = x := by
  unfold wrap_int; omega

theorem decode_sample_inv (u : Uninit) (q : Quantizer) (R : List Nat) (ch total : Nat)
    (B : List Nat) (wh m c : Nat) (st : DecState)
    (h : DecInv R ch total B m c st) (hc : c < ch) (h3 : ch ≤ 3) (hm : m + 1 < wh)
    (hq : QOK q) (hR : ∀ k, R.getD k 0 ≤ 127) (htot : total = wh * ch)
    (hB : ∀ j, j < (wh - 1) * ch → FieldsAt B (code_off R ch j) (code_fields (resid R ch j)))
    (hBlen : code_off R ch ((wh - 1) * ch) ≤ 8 * B.length) :
    DecInv R ch total B m (c + 1) (decode_sample u q ch (m + 1) c st) := by
  obtain ⟨hs, hl, hred, hprev⟩ := h
  have hmul : (m + 1) * ch ≤ (wh - 1) * ch := Nat.mul_le_mul_right _ (by omega)
  have hsm : (m + 1) * ch = m * ch + ch := by ring
  have hwh : wh * ch = (wh - 1) * ch + ch := by
    have : wh = (wh - 1) + 1 := by omega
    conv_lhs => rw [this]
    ring
  have hn : m * ch + c < (wh - 1) * ch := by omega
  have hmono := code_off_mono R ch (m * ch + c + 1) ((wh - 1) * ch) (by omega)
  simp only [code_off] at hmono
  have hdec := decode_value_spec B q (code_off R ch (m * ch + c)) (resid R ch (m * ch + c)) hq
    (zigzag_encode_lt _) (by omega) (hB _ hn)
  have ha := hR ((m + 1) * ch + c)
  have hb := hR (m * ch + c)
  have hcur : wrap_int (st.prev.getD c 0 + zigzag_decode (resid R ch (m * ch + c)))
      = ((R.getD ((m + 1) * ch + c) 0 : Nat) : Int) := by
    unfold resid
    rw [hprev.2.2 c (Nat.le_refl _) hc, show ch + (m * ch + c) = (m + 1) * ch + c by omega,
      zigzag_roundtrip _ (by omega) (by omega)]
    rw [wrap_int_of_small _ (by omega) (by omega)]
    ring
  unfold decode_sample
  simp only [hs, hdec, hcur]
  refine ⟨?_, by simp [hl], ?_, PrevInv_step R ch m c st.prev hprev hc h3⟩
  · rw [show m * ch + (c + 1) = (m * ch + c) + 1 by omega]
    simp only [code_off]
  · intro k hk
    have hval : (((R.getD ((m + 1) * ch + c) 0 : Nat) : Int) % 256).toNat
        = R.getD ((m + 1) * ch + c) 0 := by omega
    rw [hval]
    by_cases e : (m + 1) * ch + c = k
    · rw [← e, getD_set_self _ _ _ (by rw [hl, htot]; omega)]
    · rw [getD_set_ne _ _ _ _ e]
      exact hred k (by omega)

theorem decode_pixel_inv (u : Uninit) (q : Quantizer) (R : List Nat) (ch total : Nat)
    (B : List Nat) (wh m : Nat) (st : DecState)
    (h : DecInv R ch total B m 0 st) (h3 : ch ≤ 3) (hm : m + 1 < wh)
    (hq : QOK q) (hR : ∀ k, R.getD k 0 ≤ 127) (htot : total = wh * ch)
    (hB : ∀ j, j < (wh - 1) * ch → FieldsAt B (code_off R ch j) (code_fields (resid R ch j)))
    (hBlen : code_off R ch ((wh - 1) * ch) ≤ 8 * B.length) :
    DecInv R ch total B (m + 1) 0 (decode_pixel u q ch (m + 1) st) := by
  have key : ∀ c, c ≤ ch → DecInv R ch total B m c
      ((List.range c).foldl (fun st c => decode_sample u q ch (m + 1) c st) st) := by
    intro c
    induction c with
    | zero => intro _; simpa using h
    | succ c ih =>
      intro hc
      rw [List.range_succ, List.foldl_append]
      exact decode_sample_inv u q R ch total B wh m c _ (ih (by omega)) (by omega) h3 hm hq hR
        htot hB hBlen
  obtain ⟨a1, a2, a3, a4⟩ := key ch (Nat.le_refl _)
  have e : (m + 1) * ch + 0 = m * ch + ch := by ring
  exact ⟨by rw [e]; exact a1, a2, by rw [e]; exact a3, PrevInv_next R ch m _ a4⟩

theorem decode_loop_inv (u : Uninit) (q : Quantizer) (R : List Nat) (ch total : Nat)
    (B : List Nat) (wh : Nat) (st : DecState)
    (h : DecInv R ch total B 0 0 st) (h3 : ch ≤ 3)
    (hq : QOK q) (hR : ∀ k, R.getD k 0 ≤ 127) (htot : total = wh * ch)
    (hB : ∀ j, j < (wh - 1) * ch → FieldsAt B (code_off R ch j) (code_fields (resid R ch j)))
    (hBlen : code_off R ch ((wh - 1) * ch) ≤ 8 * B.length) :
    DecInv R ch total B (wh - 1) 0 (decode_loop u q ch wh st) := by
  have key : ∀ k, k ≤ wh - 1 → DecInv R ch total B k 0
      ((List.range' 1 k).foldl (fun st i => decode_pixel u q ch i st) st) := by
    intro k
    induction k with
    | zero => intro _; simpa using h
    | succ k ih =>
      intro hk
      rw [List.range'_concat, List.foldl_append]
      simp only [List.foldl_cons, List.foldl_nil]
      rw [show 1 + 1 * k = k + 1 by omega]
      exact decode_pixel_inv u q R ch total B wh k _ (ih (by omega)) h3 (by omega) hq hR htot
        hB hBlen
  exact key (wh - 1) (Nat.le_refl _)

theorem list_eq_of_getD (l1 l2 : List Nat) (hl : l1.length = l2.length)
    (h : ∀ k, k < l1.length → l1.getD k 0 = l2.getD k 0) : l1 = l2 := by
  apply List.ext_getElem hl
  intro n h1 h2
  have := h n h1
  simpa [List.getD_eq_getElem?_getD, List.getElem?_eq_getElem h1, List.getElem?_eq_getElem h2]
    using this

/-! ## Header bytes and small facts -/

theorem and_255 (x : Nat) : x &&& 0xFF = x % 256 := by
  have := Nat.and_pow_two_sub_one_eq_mod x 8
  simpa using this

theorem read_write_u16 (v : Nat) :
    read_u16 ((v % 65536) &&& 0xFF) (((v % 65536) >>> 8) &&& 0xFF) = v % 65536 := by
  unfold read_u16
  rw [and_255, and_255, Nat.shiftRight_eq_div_pow, Nat.shiftLeft_eq]
  have h := Nat.mul_add_lt_is_or (i := 8) (b := v % 65536 % 256) (by omega) (v % 65536 / 2 ^ 8 % 256)
  rw [Nat.lor_comm, Nat.mul_comm, ← h]
  omega

theorem dif_header_eq (pic : Picture) :
    dif_header pic
      = [((if pic.channels = 3 then MAGIC_RGB else MAGIC_GRAY) % 65536) &&& 0xFF,
         (((if pic.channels = 3 then MAGIC_RGB else MAGIC_GRAY) % 65536) >>> 8) &&& 0xFF,
         (pic.w % 65536) &&& 0xFF, ((pic.w % 65536) >>> 8) &&& 0xFF,
         (pic.h % 65536) &&& 0xFF, ((pic.h % 65536) >>> 8) &&& 0xFF,
         4, 1, 2, 4, 8] := by
  simp [dif_header, write_u16, NUM_LEVELS, level_bits, List.range, List.range.loop]

set_option maxRecDepth 100000 in
theorem shift_round (p : Nat) (h : p < 256) : (((p >>> 1) % 256) <<< 1) % 256 = p &&& 0xFE := by
  revert p
  decide

theorem foldl_set_range {α : Type} (f : Nat → α) (l : List α) (d : α) : ∀ c, c ≤ l.length →
    ((List.range c).foldl (fun acc i => acc.set i (f i)) l).length = l.length
      ∧ ∀ k, ((List.range c).foldl (fun acc i => acc.set i (f i)) l).getD k d
          = if k < c then f k else l.getD k d := by
  intro c
  induction c with
  | zero => intro _; simp
  | succ c ih =>
    intro hc
    obtain ⟨h1, h2⟩ := ih (by omega)
    rw [List.range_succ, List.foldl_append]
    simp only [List.foldl_cons, List.foldl_nil, List.length_set]
    refine ⟨h1, fun k => ?_⟩
    have hlen : c < ((List.range c).foldl (fun acc i => acc.set i (f i)) l).length := by
      rw [h1]; omega
    have h2k := h2 k
    simp only [List.getD_eq_getElem?_getD, List.getElem?_set] at h2k ⊢
    by_cases e : c = k
    · subst e
      simp [hlen]
    · simp only [e, if_false, h2k]
      by_cases hk : k < c
      · have : k < c + 1 := by omega
        simp [hk, this]
      · have : ¬ k < c + 1 := by omega
        simp [hk, this]

/-! ## Payload written by the encoder, pixels rebuilt by the decoder -/

theorem bit_at_take (buf : List Nat) (m k : Nat) (h : k < 8 * m) :
    bit_at (buf.take m) k = bit_at buf k := by
  unfold bit_at
  have : k / 8 < m := by omega
  simp [List.getD_eq_getElem?_getD, List.getElem?_take, this]

theorem prev_seed_inv (R : List Nat) (ch : Nat) (h3 : ch ≤ 3) :
    PrevInv R ch 0 0
      ((List.range ch).foldl (fun pv c => pv.set c ((R.getD c 0 : Nat) : Int)) [0, 0, 0]) := by
  obtain ⟨h1, h2⟩ := foldl_set_range (fun c => ((R.getD c 0 : Nat) : Int)) [0, 0, 0] 0 ch
    (by simpa using h3)
  refine ⟨by simpa using h1, fun _ hc => absurd hc (Nat.not_lt_zero _), fun c' _ hc => ?_⟩
  rw [h2 c']
  simp [hc]

theorem encode_payload_spec (R : List Nat) (ch wh total : Nat) (h3 : ch ≤ 3) (hwh : 1 ≤ wh)
    (htot : total = wh * ch) :
    (∀ j, j < (wh - 1) * ch →
        FieldsAt (encode_payload R ch wh total) (code_off R ch j) (code_fields (resid R ch j)))
      ∧ code_off R ch ((wh - 1) * ch) ≤ 8 * (encode_payload R ch wh total).length
      ∧ 8 * (encode_payload R ch wh total).length < code_off R ch ((wh - 1) * ch) + 8 := by
  have hsplit : wh * ch = (wh - 1) * ch + ch := by
    have : wh = (wh - 1) + 1 := by omega
    conv_lhs => rw [this]
    ring
  have hcap : 11 * ((wh - 1) * ch) ≤ 8 * ((total * 11 + 7) / 8 + 16) := by omega
  have h0 : EncInv R ch ((total * 11 + 7) / 8 + 16) 0 0
      ⟨(List.range ch).foldl (fun pv c => pv.set c ((R.getD c 0 : Nat) : Int)) [0, 0, 0],
        stream_init_write (List.replicate ((total * 11 + 7) / 8 + 16) 0)⟩ := by
    refine ⟨stream_init_write_WInv _, by simp [stream_init_write_length], ?_, ?_,
      prev_seed_inv R ch h3⟩
    · simp [stream_init_write_pos, code_off]
    · intro j hj; simp at hj
  obtain ⟨a1, a2, a3, a4, -⟩ := encode_loop_inv R ch _ wh _ h0 h3 hcap
  simp only [Nat.add_zero] at a3 a4
  have hoff := code_off_le R ch ((wh - 1) * ch)
  unfold encode_payload
  simp only
  generalize encode_loop R ch wh _ = st at a1 a2 a3 a4 ⊢
  have hused : stream_bytes_used st.stream = (code_off R ch ((wh - 1) * ch) + 7) / 8 := by
    unfold stream_bytes_used; unfold Stream.pos at a3; rw [a3]
  rw [hused]
  have hlen : (st.stream.buf.take ((code_off R ch ((wh - 1) * ch) + 7) / 8)).length
      = (code_off R ch ((wh - 1) * ch) + 7) / 8 := by
    rw [List.length_take, a2]; omega
  refine ⟨?_, by rw [hlen]; omega, by rw [hlen]; omega⟩
  intro j hj
  refine FieldsAt_congr st.stream.buf _ (8 * ((code_off R ch ((wh - 1) * ch) + 7) / 8))
    (fun k hk => bit_at_take _ _ _ hk) _ _ ?_ (a4 j hj)
  rw [code_fields_width]
  have := code_off_mono R ch (j + 1) ((wh - 1) * ch) (by omega)
  simp only [code_off] at this
  omega

theorem decode_pixels_spec (u : Uninit) (q : Quantizer) (R : List Nat) (ch wh total : Nat)
    (B : List Nat) (h3 : ch ≤ 3) (hwh : 1 ≤ wh) (htot : total = wh * ch)
    (hlen : R.length = total) (hq : QOK q) (hR : ∀ k, R.getD k 0 ≤ 127)
    (hB : ∀ j, j < (wh - 1) * ch → FieldsAt B (code_off R ch j) (code_fields (resid R ch j)))
    (hBlen : code_off R ch ((wh - 1) * ch) ≤ 8 * B.length) :
    decode_pixels u q ch wh total (R.take ch) B = R.map (fun r => (r <<< 1) % 256) := by
  have hsplit : wh * ch = (wh - 1) * ch + ch := by
    have : wh = (wh - 1) + 1 := by omega
    conv_lhs => rw [this]
    ring
  have hfirst : ∀ c, c < ch → (R.take ch).getD c 0 = R.getD c 0 := by
    intro c hc
    simp [List.getD_eq_getElem?_getD, List.getElem?_take, hc]
  have hprev : (List.range ch).foldl
      (fun pv c => pv.set c (((R.take ch).getD c 0 : Nat) : Int)) [0, 0, 0]
      = (List.range ch).foldl (fun pv c => pv.set c ((R.getD c 0 : Nat) : Int)) [0, 0, 0] := by
    apply List.foldl_ext
    intro pv c hc
    rw [hfirst c (List.mem_range.mp hc)]
  obtain ⟨r1, r2⟩ := foldl_set_range (fun c => (R.take ch).getD c 0) (List.replicate total 0) 0 ch
    (by simp; omega)
  have h0 : DecInv R ch total B 0 0
      ⟨(List.range ch).foldl (fun pv c => pv.set c (((R.take ch).getD c 0 : Nat) : Int)) [0, 0, 0],
        (List.range ch).foldl (fun rd c => rd.set c ((R.take ch).getD c 0))
          (List.replicate total 0),
        stream_init_read B⟩ := by
    refine ⟨by simp [stream_init_read_eq, code_off], by simpa using r1, ?_, ?_⟩
    · intro k hk
      have hk' : k < ch := by omega
      rw [r2 k]
      simp [hk', hfirst k hk']
    · rw [hprev]; exact prev_seed_inv R ch h3
  obtain ⟨-, b2, b3, -⟩ := decode_loop_inv u q R ch total B wh _ h0 h3 hq hR htot hB hBlen
  unfold decode_pixels
  simp only
  generalize decode_loop u q ch wh _ = st at b2 b3 ⊢
  have : st.red = R := by
    apply list_eq_of_getD _ _ (by rw [b2, hlen])
    intro k hk
    exact b3 k (by rw [b2] at hk; omega)
  rw [this]

/-! ## The two converters on valid pictures -/

theorem pnmtodif_run_eq (pic : Picture) (hv : ValidPicture pic) (hf : FitsInt pic) :
    pnmtodif_run pic
      = Run.ret 0 (some (dif_header pic ++ (reduced_of pic).take pic.channels
          ++ encode_payload (reduced_of pic) pic.channels (pic.w * pic.h)
              (pic.w * pic.h * pic.channels))) := by
  obtain ⟨hw1, -, hh1, -, hc, hlen, -⟩ := hv
  unfold FitsInt at hf
  have hwh : 1 ≤ pic.w * pic.h := Nat.mul_pos hw1 hh1
  have hch : 1 ≤ pic.channels ∧ pic.channels ≤ 3 := by omega
  have htot : pic.w * pic.h ≤ pic.w * pic.h * pic.channels := Nat.le_mul_of_pos_right _ hch.1
  have htot2 : pic.channels ≤ pic.w * pic.h * pic.channels := Nat.le_mul_of_pos_left _ hwh
  have g1 : ¬ (INT_MAX < pic.w * pic.h ∨ INT_MAX < pic.w * pic.h * pic.channels) := by omega
  have g2 : ¬ (pic.pixels.length < pic.w * pic.h * pic.channels) := by omega
  have g3 : ¬ (3 < pic.channels ∨ pic.w * pic.h * pic.channels < pic.channels) := by omega
  have g4 : ¬ (INT_MAX < pic.w * pic.h * pic.channels * 11 + 7) := by omega
  have htake : pic.pixels.take (pic.w * pic.h * pic.channels) = pic.pixels :=
    List.take_of_length_le (by omega)
  unfold pnmtodif_run reduced_of
  simp only [g1, g2, g3, g4, if_false, htake]

theorem diftopnm_run_eq (u : Uninit) (pic : Picture) (hv : ValidPicture pic)
    (hi : pic.w * pic.h * pic.channels ≤ INT_MAX) (seeds B : List Nat)
    (hs : seeds.length = pic.channels) :
    ∃ q, QOK q ∧ diftopnm_run u (dif_header pic ++ seeds ++ B)
      = Run.ret 0 (some ⟨pic.w, pic.h, pic.channels,
          decode_pixels u q pic.channels (pic.w * pic.h) (pic.w * pic.h * pic.channels) seeds B⟩) := by
  obtain ⟨hw1, hw2, hh1, hh2, hc, -, -⟩ := hv
  obtain ⟨q, hq, hok⟩ := quant_build_std u
  refine ⟨q, hok, ?_⟩
  have hwh : 1 ≤ pic.w * pic.h := Nat.mul_pos hw1 hh1
  have htot2 : pic.channels ≤ pic.w * pic.h * pic.channels := Nat.le_mul_of_pos_left _ hwh
  have hmagic : (if read_u16 (((if pic.channels = 3 then MAGIC_RGB else MAGIC_GRAY) % 65536) &&& 0xFF)
      ((((if pic.channels = 3 then MAGIC_RGB else MAGIC_GRAY) % 65536) >>> 8) &&& 0xFF) = MAGIC_RGB
      then 3 else 1) = pic.channels := by
    rw [read_write_u16]
    rcases hc with h | h <;> simp [h, MAGIC_RGB, MAGIC_GRAY]
  have hw : read_u16 ((pic.w % 65536) &&& 0xFF) (((pic.w % 65536) >>> 8) &&& 0xFF) = pic.w := by
    rw [read_write_u16]; omega
  have hh : read_u16 ((pic.h % 65536) &&& 0xFF) (((pic.h % 65536) >>> 8) &&& 0xFF) = pic.h := by
    rw [read_write_u16]; omega
  have g1 : ¬ (NUM_LEVELS < 4 ∨ (1 :: 2 :: 4 :: 8 :: (seeds ++ B)).length < 4 + pic.channels) := by
    simp [NUM_LEVELS, hs]
    omega
  have g2 : ¬ (INT_MAX < pic.w * pic.h * pic.channels ∨ pic.w * pic.h * pic.channels < pic.channels) := by
    omega
  have t1 : (1 :: 2 :: 4 :: 8 :: (seeds ++ B)).take 4 = [1, 2, 4, 8] := by simp
  have t2 : ((1 :: 2 :: 4 :: 8 :: (seeds ++ B)).drop 4).take pic.channels = seeds := by
    simp [← hs]
  have t3 : ((1 :: 2 :: 4 :: 8 :: (seeds ++ B)).drop 4).drop pic.channels = B := by
    simp [← hs]
  rw [dif_header_eq]
  simp only [List.cons_append, List.nil_append, List.append_assoc]
  unfold diftopnm_run
  simp only [hmagic, hw, hh, g1, g2, if_false, t1, t2, t3, hq]

/-! ## Round trip of a picture -/

theorem reduced_of_length (pic : Picture) : (reduced_of pic).length = pic.pixels.length := by
  simp [reduced_of]

theorem reduced_of_le (pic : Picture) (hp : ∀ p ∈ pic.pixels, p < 256) (k : Nat) :
    (reduced_of pic).getD k 0 ≤ 127 := by
  unfold reduced_of
  rw [List.getD_eq_getElem?_getD, List.getElem?_map]
  cases h : pic.pixels[k]? with
  | none => simp
  | some p =>
    have hp' := hp p (List.getElem?_mem h)
    simp only [Option.map_some', Option.getD_some, Nat.shiftRight_eq_div_pow]
    omega

theorem reduced_of_restore (pic : Picture) (hp : ∀ p ∈ pic.pixels, p < 256) :
    (reduced_of pic).map (fun r => (r <<< 1) % 256) = pic.pixels.map (fun p => p &&& 0xFE) := by
  unfold reduced_of
  rw [List.map_map]
  apply List.map_congr_left
  intro p hmem
  exact shift_round p (hp p hmem)

theorem roundtrip_run (pic : Picture) (hv : ValidPicture pic) (hf : FitsInt pic) :
    ∃ dif, pnmtodif_run pic = Run.ret 0 (some dif)
      ∧ ∀ u, diftopnm_run u dif
          = Run.ret 0 (some ⟨pic.w, pic.h, pic.channels, pic.pixels.map (fun p => p &&& 0xFE)⟩) := by
  refine ⟨_, pnmtodif_run_eq pic hv hf, fun u => ?_⟩
  have hv' := hv
  obtain ⟨hw1, -, hh1, -, hc, hlen, hp⟩ := hv'
  have hwh : 1 ≤ pic.w * pic.h := Nat.mul_pos hw1 hh1
  have hch : 1 ≤ pic.channels ∧ pic.channels ≤ 3 := by omega
  have htot2 : pic.channels ≤ pic.w * pic.h * pic.channels := Nat.le_mul_of_pos_left _ hwh
  have hf' : pic.w * pic.h * pic.channels ≤ INT_MAX := by unfold FitsInt at hf; omega
  obtain ⟨e1, e2, -⟩ := encode_payload_spec (reduced_of pic) pic.channels (pic.w * pic.h)
    (pic.w * pic.h * pic.channels) hch.2 hwh rfl
  obtain ⟨q, hq, hrun⟩ := diftopnm_run_eq u pic hv hf' ((reduced_of pic).take pic.channels)
    (encode_payload (reduced_of pic) pic.channels (pic.w * pic.h) (pic.w * pic.h * pic.channels))
    (by rw [List.length_take, reduced_of_length, hlen]; omega)
  rw [hrun, decode_pixels_spec u q (reduced_of pic) pic.channels (pic.w * pic.h)
    (pic.w * pic.h * pic.channels) _ hch.2 hwh rfl (by rw [reduced_of_length, hlen]) hq
    (reduced_of_le pic hp) e1 e2, reduced_of_restore pic hp]

/-- C1 inside the `int` range of the encoder's size computation: for every
picture with dimensions in 1..65535, one or three channels and byte samples
whose worst-case bit count `w * h * c * 11 + 7` is at most `INT_MAX`, encoding
succeeds and decoding the result yields, at every sample index, the original
sample with its least-significant bit cleared. -/
theorem roundtrip_clears_lsb (pic : Picture) (hv : ValidPicture pic) (hf : FitsInt pic) :
    ∃ dif out, pnmtodif_run pic = Run.ret 0 (some dif)
      ∧ (∀ u, diftopnm_run u dif = Run.ret 0 (some out))
      ∧ out.pixels.length = pic.pixels.length
      ∧ ∀ i, i < pic.pixels.length → out.pixels.getD i 0 = pic.pixels.getD i 0 &&& 0xFE := by
  obtain ⟨dif, h1, h2⟩ := roundtrip_run pic hv hf
  refine ⟨dif, _, h1, h2, by simp, fun i hi => ?_⟩
  simp [List.getD_eq_getElem?_getD, List.getElem?_map, List.getElem?_eq_getElem hi]

theorem roundtrip_clears_lsb_witness :
    ValidPicture ⟨2, 1, 3, [10, 13, 255, 0, 77, 3]⟩ ∧ FitsInt ⟨2, 1, 3, [10, 13, 255, 0, 77, 3]⟩
      ∧ ∃ dif out, pnmtodif_run ⟨2, 1, 3, [10, 13, 255, 0, 77, 3]⟩ = Run.ret 0 (some dif)
        ∧ (∀ u, diftopnm_run u dif = Run.ret 0 (some out))
        ∧ out.pixels.length = [10, 13, 255, 0, 77, 3].length
        ∧ ∀ i, i < [10, 13, 255, 0, 77, 3].length →
            out.pixels.getD i 0 = [10, 13, 255, 0, 77, 3].getD i 0 &&& 0xFE :=
  ⟨by decide, by decide,
    roundtrip_clears_lsb ⟨2, 1, 3, [10, 13, 255, 0, 77, 3]⟩
      (by decide) (by decide)⟩

theorem pnmtodif_run_overflow (w h c : Nat) (px : List Nat) (hc : c ≤ 3)
    (h1 : w * h ≤ INT_MAX) (h2 : c ≤ w * h * c) (h3 : w * h * c ≤ INT_MAX)
    (hl : px.length = w * h * c) (hbig : INT_MAX < w * h * c * 11 + 7) :
    pnmtodif_run ⟨w, h, c, px⟩ = Run.undef := by
  have g1 : ¬ (INT_MAX < w * h ∨ INT_MAX < w * h * c) := by omega
  have g2 : ¬ (px.length < w * h * c) := by omega
  have g3 : ¬ (3 < c ∨ w * h * c < c) := by omega
  unfold pnmtodif_run
  simp only [g1, g2, g3, hbig, if_false, if_true]

theorem replicate_zero_bytes (n : Nat) : ∀ p ∈ List.replicate n 0, p < 256 := by
  intro p hp
  rw [List.eq_of_mem_replicate hp]
  decide

/-- C1, at the failing input: the 65535 x 2979 grayscale picture is within the
stated ranges and its 195228765 samples fit `int`, but the size
`total * 11 + 7` that `pnmtodif` computes for its buffer exceeds `INT_MAX`:
the run is undefined (with two's-complement wrap-around the size is negative
and no buffer is allocated) and yields no DIF to decode. -/
theorem roundtrip_beyond_int :
    ValidPicture ⟨65535, 2979, 1, List.replicate (65535 * 2979 * 1) 0⟩
      ∧ 65535 * 2979 * 1 ≤ INT_MAX
      ∧ INT_MAX < 65535 * 2979 * 1 * 11 + 7
      ∧ (wrap_int (65535 * 2979 * 1 * 11 + 7)).tdiv 8 + 16 < 0
      ∧ pnmtodif_run ⟨65535, 2979, 1, List.replicate (65535 * 2979 * 1) 0⟩ = Run.undef
      ∧ ¬ ∃ dif, pnmtodif_run ⟨65535, 2979, 1, List.replicate (65535 * 2979 * 1) 0⟩
          = Run.ret 0 (some dif) := by
  have h := pnmtodif_run_overflow 65535 2979 1 (List.replicate (65535 * 2979 * 1) 0)
    (by decide) (by decide) (by decide) (by decide) (List.length_replicate _ _) (by decide)
  refine ⟨⟨by decide, by decide, by decide, by decide, Or.inl rfl, List.length_replicate _ _,
      replicate_zero_bytes _⟩, by decide, by decide, by decide, h,
    fun ⟨dif, hd⟩ => by rw [h] at hd; exact Run.noConfusion hd⟩

/-! ## Header layout and header round trip -/

theorem seeds_eq (pic : Picture) (hp : ∀ p ∈ pic.pixels, p < 256) :
    (reduced_of pic).take pic.channels = (pic.pixels.take pic.channels).map (fun p => p >>> 1) := by
  unfold reduced_of
  rw [← List.map_take]
  apply List.map_congr_left
  intro p hmem
  have := hp p (List.mem_of_mem_take hmem)
  rw [Nat.shiftRight_eq_div_pow]
  omega

theorem header_bytes (pic : Picture) (hv : ValidPicture pic) :
    dif_header pic
      = [0xFF, if pic.channels = 1 then 0xD1 else 0xD3, pic.w % 256, pic.w / 256,
         pic.h % 256, pic.h / 256, 0x04, 0x01, 0x02, 0x04, 0x08] := by
  obtain ⟨-, hw2, -, hh2, hc, -, -⟩ := hv
  rw [dif_header_eq]
  have hm1 : ((if pic.channels = 3 then MAGIC_RGB else MAGIC_GRAY) % 65536) &&& 0xFF = 0xFF := by
    rcases hc with h | h <;> rw [h] <;> decide
  have hm2 : (((if pic.channels = 3 then MAGIC_RGB else MAGIC_GRAY) % 65536) >>> 8) &&& 0xFF
      = if pic.channels = 1 then 0xD1 else 0xD3 := by
    rcases hc with h | h <;> rw [h] <;> decide
  have lo : ∀ x : Nat, (x % 65536) &&& 0xFF = x % 256 := by
    intro x; rw [and_255]; omega
  have hi : ∀ x : Nat, x ≤ 65535 → ((x % 65536) >>> 8) &&& 0xFF = x / 256 := by
    intro x hx; rw [and_255, Nat.shiftRight_eq_div_pow]; omega
  rw [hm1, hm2, lo, lo, hi _ hw2, hi _ hh2]

/-- C4 inside the `int` range of the encoder's size computation: for every
picture with dimensions in 1..65535, one or three channels and byte samples
whose worst-case bit count `w * h * c * 11 + 7` is at most `INT_MAX`, the
encoder output is the 11 header bytes (magic FF D1 or FF D3, width and height
little-endian, 04, 01 02 04 08), then one seed byte per channel equal to the
first pixel's sample shifted right by one, then the payload: the codes of all
later samples packed one after the other, in exactly ceil(bits / 8) bytes. -/
theorem dif_layout (pic : Picture) (hv : ValidPicture pic) (hf : FitsInt pic) :
    ∃ payload, pnmtodif_run pic = Run.ret 0 (some
        ([0xFF, if pic.channels = 1 then 0xD1 else 0xD3, pic.w % 256, pic.w / 256,
          pic.h % 256, pic.h / 256, 0x04, 0x01, 0x02, 0x04, 0x08]
          ++ (pic.pixels.take pic.channels).map (fun p => p >>> 1) ++ payload))
      ∧ ((pic.pixels.take pic.channels).map (fun p => p >>> 1)).length = pic.channels
      ∧ (∀ j, j < (pic.w * pic.h - 1) * pic.channels →
          FieldsAt payload (code_off (reduced_of pic) pic.channels j)
            (code_fields (resid (reduced_of pic) pic.channels j)))
      ∧ payload.length
          = (code_off (reduced_of pic) pic.channels ((pic.w * pic.h - 1) * pic.channels) + 7) / 8 := by
  have hv' := hv
  obtain ⟨hw1, -, hh1, -, hc, hlen, hp⟩ := hv'
  have hwh : 1 ≤ pic.w * pic.h := Nat.mul_pos hw1 hh1
  have hch : 1 ≤ pic.channels ∧ pic.channels ≤ 3 := by omega
  have htot2 : pic.channels ≤ pic.w * pic.h * pic.channels := Nat.le_mul_of_pos_left _ hwh
  obtain ⟨e1, e2, e3⟩ := encode_payload_spec (reduced_of pic) pic.channels (pic.w * pic.h)
    (pic.w * pic.h * pic.channels) hch.2 hwh rfl
  refine ⟨_, ?_, ?_, e1, by omega⟩
  · rw [pnmtodif_run_eq pic hv hf, header_bytes pic hv, seeds_eq pic hp]
  · rw [List.length_map, List.length_take, hlen]; omega

theorem dif_layout_witness :
    ValidPicture ⟨1, 2, 1, [10, 12]⟩ ∧ FitsInt ⟨1, 2, 1, [10, 12]⟩
      ∧ ∃ payload, pnmtodif_run ⟨1, 2, 1, [10, 12]⟩ = Run.ret 0 (some
        ([0xFF, if (1 : Nat) = 1 then 0xD1 else 0xD3, 1 % 256, 1 / 256,
          2 % 256, 2 / 256, 0x04, 0x01, 0x02, 0x04, 0x08]
          ++ ([10, 12].take 1).map (fun p => p >>> 1) ++ payload))
      ∧ (([10, 12].take 1).map (fun p => p >>> 1)).length = 1
      ∧ (∀ j, j < (1 * 2 - 1) * 1 →
          FieldsAt payload (code_off (reduced_of ⟨1, 2, 1, [10, 12]⟩) 1 j)
            (code_fields (resid (reduced_of ⟨1, 2, 1, [10, 12]⟩) 1 j)))
      ∧ payload.length
          = (code_off (reduced_of ⟨1, 2, 1, [10, 12]⟩) 1 ((1 * 2 - 1) * 1) + 7) / 8 :=
  ⟨by decide, by decide,
    dif_layout ⟨1, 2, 1, [10, 12]⟩ (by decide) (by decide)⟩

/-- C4, at the failing input: the 16000 x 16000 grayscale picture is within the
stated ranges and its 256000000 samples fit `int`, but the size
`total * 11 + 7` that `pnmtodif` computes for its buffer exceeds `INT_MAX`:
the run is undefined (with two's-complement wrap-around the size is negative
and no buffer is allocated) and writes no header, seed or payload. -/
theorem dif_layout_beyond_int :
    ValidPicture ⟨16000, 16000, 1, List.replicate (16000 * 16000 * 1) 0⟩
      ∧ 16000 * 16000 * 1 ≤ INT_MAX
      ∧ INT_MAX < 16000 * 16000 * 1 * 11 + 7
      ∧ (wrap_int (16000 * 16000 * 1 * 11 + 7)).tdiv 8 + 16 < 0
      ∧ pnmtodif_run ⟨16000, 16000, 1, List.replicate (16000 * 16000 * 1) 0⟩ = Run.undef := by
  have h := pnmtodif_run_overflow 16000 16000 1 (List.replicate (16000 * 16000 * 1) 0)
    (by decide) (by decide) (by decide) (by decide) (List.length_replicate _ _) (by decide)
  refine ⟨⟨by decide, by decide, by decide, by decide, Or.inl rfl, List.length_replicate _ _,
      replicate_zero_bytes _⟩, by decide, by decide, by decide, h⟩

/-- C7 inside the `int` range of the encoder's size computation: for every
picture with dimensions in 1..65535, one or three channels and byte samples
whose worst-case bit count `w * h * c * 11 + 7` is at most `INT_MAX`, the
width, height and channel count the decoder reads back from the encoder's
output are those of the picture. -/
theorem dimensions_roundtrip (pic : Picture) (hv : ValidPicture pic) (hf : FitsInt pic) :
    ∃ dif out, pnmtodif_run pic = Run.ret 0 (some dif)
      ∧ (∀ u, diftopnm_run u dif = Run.ret 0 (some out))
      ∧ out.w = pic.w ∧ out.h = pic.h ∧ out.channels = pic.channels := by
  obtain ⟨dif, h1, h2⟩ := roundtrip_run pic hv hf
  exact ⟨dif, _, h1, h2, rfl, rfl, rfl⟩

theorem dimensions_roundtrip_witness :
    ValidPicture ⟨1, 1, 3, [1, 2, 3]⟩ ∧ FitsInt ⟨1, 1, 3, [1, 2, 3]⟩
      ∧ ∃ dif out, pnmtodif_run ⟨1, 1, 3, [1, 2, 3]⟩ = Run.ret 0 (some dif)
        ∧ (∀ u, diftopnm_run u dif = Run.ret 0 (some out))
        ∧ out.w = 1 ∧ out.h = 1 ∧ out.channels = 3 :=
  ⟨by decide, by decide,
    dimensions_roundtrip ⟨1, 1, 3, [1, 2, 3]⟩
      (by decide) (by decide)⟩

/-- C7, at the failing input: the 65535 x 1000 RGB picture is within the stated
ranges and its 196605000 samples fit `int`, but the size
`total * 11 + 7` that `pnmtodif` computes for its buffer exceeds `INT_MAX`:
the run is undefined (with two's-complement wrap-around the size is negative
and no buffer is allocated) and does not return, so there is no header for
the decoder to read back. -/
theorem dimensions_beyond_int :
    ValidPicture ⟨65535, 1000, 3, List.replicate (65535 * 1000 * 3) 0⟩
      ∧ 65535 * 1000 * 3 ≤ INT_MAX
      ∧ INT_MAX < 65535 * 1000 * 3 * 11 + 7
      ∧ (wrap_int (65535 * 1000 * 3 * 11 + 7)).tdiv 8 + 16 < 0
      ∧ pnmtodif_run ⟨65535, 1000, 3, List.replicate (65535 * 1000 * 3) 0⟩ = Run.undef
      ∧ ∀ code out, pnmtodif_run ⟨65535, 1000, 3, List.replicate (65535 * 1000 * 3) 0⟩
          ≠ Run.ret code out := by
  have h := pnmtodif_run_overflow 65535 1000 3 (List.replicate (65535 * 1000 * 3) 0)
    (by decide) (by decide) (by decide) (by decide) (List.length_replicate _ _) (by decide)
  refine ⟨⟨by decide, by decide, by decide, by decide, Or.inr rfl, List.length_replicate _ _,
      replicate_zero_bytes _⟩, by decide, by decide, by decide, h,
    fun code out hd => by rw [h] at hd; exact Run.noConfusion hd⟩

/-! ## The decoder on given inputs -/

theorem diftopnm_run_defined (u : Uninit) (m0 m1 w0 w1 h0 h1 nl : Nat) (rest : List Nat)
    (q : Quantizer) (hnl : nl ≤ NUM_LEVELS)
    (hlen : nl + (if read_u16 m0 m1 = MAGIC_RGB then 3 else 1) ≤ rest.length)
    (hq : quant_build u (rest.take nl) = some q)
    (hdim : 1 ≤ read_u16 w0 w1 * read_u16 h0 h1)
    (hmax : read_u16 w0 w1 * read_u16 h0 h1 * (if read_u16 m0 m1 = MAGIC_RGB then 3 else 1)
      ≤ INT_MAX) :
    diftopnm_run u (m0 :: m1 :: w0 :: w1 :: h0 :: h1 :: nl :: rest)
      = Run.ret 0 (some ⟨read_u16 w0 w1, read_u16 h0 h1,
          if read_u16 m0 m1 = MAGIC_RGB then 3 else 1,
          decode_pixels u q (if read_u16 m0 m1 = MAGIC_RGB then 3 else 1)
            (read_u16 w0 w1 * read_u16 h0 h1)
            (read_u16 w0 w1 * read_u16 h0 h1 * (if read_u16 m0 m1 = MAGIC_RGB then 3 else 1))
            ((rest.drop nl).take (if read_u16 m0 m1 = MAGIC_RGB then 3 else 1))
            ((rest.drop nl).drop (if read_u16 m0 m1 = MAGIC_RGB then 3 else 1))⟩) := by
  have g1 : ¬ (NUM_LEVELS < nl
      ∨ rest.length < nl + (if read_u16 m0 m1 = MAGIC_RGB then 3 else 1)) := by omega
  have hc : (if read_u16 m0 m1 = MAGIC_RGB then 3 else 1)
      ≤ read_u16 w0 w1 * read_u16 h0 h1 * (if read_u16 m0 m1 = MAGIC_RGB then 3 else 1) :=
    Nat.le_mul_of_pos_left _ hdim
  have g2 : ¬ (INT_MAX < read_u16 w0 w1 * read_u16 h0 h1
        * (if read_u16 m0 m1 = MAGIC_RGB then 3 else 1)
      ∨ read_u16 w0 w1 * read_u16 h0 h1 * (if read_u16 m0 m1 = MAGIC_RGB then 3 else 1)
        < (if read_u16 m0 m1 = MAGIC_RGB then 3 else 1)) := by omega
  unfold diftopnm_run
  simp only [g1, g2, if_false, hq]

/-- C6: decoding FF D1 01 00 02 00 04 01 02 04 08 05 80 succeeds and yields the
single-channel picture of width 1 and height 2 with pixels 10, 12, whatever
the uninitialised storage holds. -/
theorem decode_scenario : ∀ u : Uninit,
    diftopnm_run u [0xFF, 0xD1, 0x01, 0x00, 0x02, 0x00, 0x04, 0x01, 0x02, 0x04, 0x08, 0x05, 0x80]
      = Run.ret 0 (some ⟨1, 2, 1, [10, 12]⟩) := by
  intro u
  obtain ⟨dif, h1, h2⟩ := roundtrip_run ⟨1, 2, 1, [10, 12]⟩
    (by decide) (by decide)
  have e : pnmtodif_run ⟨1, 2, 1, [10, 12]⟩
      = Run.ret 0 (some [0xFF, 0xD1, 0x01, 0x00, 0x02, 0x00, 0x04, 0x01, 0x02, 0x04, 0x08,
          0x05, 0x80]) := by decide
  rw [e] at h1
  have hd : dif = [0xFF, 0xD1, 0x01, 0x00, 0x02, 0x00, 0x04, 0x01, 0x02, 0x04, 0x08, 0x05, 0x80] := by
    injection h1 with _ h; injection h with h; exact h.symm
  rw [← hd, h2 u]
  rfl

/-- C9, at the failing input: the header FF D1 01 00 02 00 04 01 02 04 08 05
announces a 1x2 picture and the payload is empty, yet the run returns 0 and
hands `picture_save` a picture whose second pixel is computed from the
unwritten byte `enc`. -/
theorem truncated_payload_accepted : ∀ u : Uninit,
    diftopnm_run u [0xFF, 0xD1, 0x01, 0x00, 0x02, 0x00, 0x04, 0x01, 0x02, 0x04, 0x08, 0x05]
      = Run.ret 0 (some ⟨1, 2, 1,
          [10, (((wrap_int (5 + zigzag_decode (u.enc 1 % 256)) % 256).toNat) <<< 1) % 256]⟩) := by
  intro u
  obtain ⟨q, hq, -⟩ := quant_build_std u
  rw [diftopnm_run_defined u 0xFF 0xD1 1 0 2 0 4 [1, 2, 4, 8, 5] q (by decide) (by decide) hq
    (by decide) (by decide)]
  rfl

/-! ## The magic number -/

set_option maxRecDepth 100000 in
theorem zigzag_decode_range (e : Nat) (he : e ≤ 254) :
    -127 ≤ zigzag_decode e ∧ zigzag_decode e ≤ 127 ∧ zigzag_encode (zigzag_decode e) = e := by
  have key : ∀ k : Fin 255, -127 ≤ zigzag_decode k ∧ zigzag_decode k ≤ 127
      ∧ zigzag_encode (zigzag_decode k) = k := by decide
  exact key ⟨e, by omega⟩

/-- C11: on the residuals -127..127 `zigzag_encode` is `2 * d` for `d ≥ 0` and
`-2 * d - 1` for `d < 0`, with values in 0..254; `zigzag_decode` maps 0..254
back into -127..127, and the two functions are inverse to each other on these
ranges. -/
theorem zigzag_bijection (d : Int) (e : Nat) (hd1 : -127 ≤ d) (hd2 : d ≤ 127) (he : e ≤ 254) :
    ((zigzag_encode d : Int) = if d ≥ 0 then 2 * d else -2 * d - 1)
      ∧ zigzag_encode d ≤ 254
      ∧ zigzag_decode (zigzag_encode d) = d
      ∧ -127 ≤ zigzag_decode e ∧ zigzag_decode e ≤ 127
      ∧ zigzag_encode (zigzag_decode e) = e := by
  refine ⟨?_, ?_, zigzag_roundtrip d hd1 hd2, zigzag_decode_range e he⟩
  · unfold zigzag_encode
    split_ifs <;> omega
  · unfold zigzag_encode
    split_ifs <;> omega

theorem zigzag_bijection_witness :
    ((zigzag_encode (-127) : Int) = if (-127 : Int) ≥ 0 then 2 * (-127) else -2 * (-127) - 1)
      ∧ zigzag_encode (-127) ≤ 254
      ∧ zigzag_decode (zigzag_encode (-127)) = -127
      ∧ -127 ≤ zigzag_decode 254 ∧ zigzag_decode 254 ≤ 127
      ∧ zigzag_encode (zigzag_decode 254) = 254 :=
  zigzag_bijection (-127) 254 (by decide) (by decide) (by decide)

set_option maxRecDepth 100000 in
/-- C12: for every byte `v`, `map_value v` is 0 below 2, 1 below 6, 2 below 22
and 3 otherwise; it is the one level, hence the smallest, whose range
`[bound, bound + 2 ^ bits)` contains `v`; the payload `v - level_bound` is
non-negative, is what `encode_value` writes, and fits in `level_bits` bits. -/
theorem map_value_smallest_level (v : Nat) (hv : v < 256) :
    map_value v = (if v < 2 then 0 else if v < 6 then 1 else if v < 22 then 2 else 3)
      ∧ (∀ l, l < NUM_LEVELS →
          (level_bound l ≤ v ∧ v < level_bound l + 2 ^ level_bits l ↔ l = map_value v))
      ∧ level_bound (map_value v) ≤ v
      ∧ code_data v = v - level_bound (map_value v)
      ∧ v - level_bound (map_value v) < 2 ^ level_bits (map_value v) := by
  revert v
  decide

theorem map_value_smallest_level_witness :
    map_value 21 = (if 21 < 2 then 0 else if 21 < 6 then 1 else if 21 < 22 then 2 else 3)
      ∧ (∀ l, l < NUM_LEVELS →
          (level_bound l ≤ 21 ∧ 21 < level_bound l + 2 ^ level_bits l ↔ l = map_value 21))
      ∧ level_bound (map_value 21) ≤ 21
      ∧ code_data 21 = 21 - level_bound (map_value 21)
      ∧ 21 - level_bound (map_value 21) < 2 ^ level_bits (map_value 21) :=
  map_value_smallest_level 21 (by decide)

set_option maxRecDepth 100000 in
/-- C19: the table of the codec, bit widths 1, 2, 4, 8 and bounds 0, 2, 6, 22,
has `bound[0] = 0` and `bound[i] = bound[i-1] + 2 ^ width[i-1]`, its bounds
increase strictly, and every byte 0..255 lies in the range
`[bound[l], bound[l] + 2 ^ width[l])` of exactly one level `l`. -/
theorem quant_table_invariant :
    (List.range NUM_LEVELS).map level_bits = [1, 2, 4, 8]
      ∧ (List.range NUM_LEVELS).map level_bound = [0, 2, 6, 22]
      ∧ level_bound 0 = 0
      ∧ (∀ i, i < NUM_LEVELS → 0 < i →
          level_bound i = level_bound (i - 1) + 2 ^ level_bits (i - 1))
      ∧ (∀ j, j < NUM_LEVELS → ∀ i, i < j → level_bound i < level_bound j)
      ∧ (∀ v, v < 256 → ∃ l, l < NUM_LEVELS
          ∧ (level_bound l ≤ v ∧ v < level_bound l + 2 ^ level_bits l)
          ∧ ∀ l', l' < NUM_LEVELS →
              level_bound l' ≤ v ∧ v < level_bound l' + 2 ^ level_bits l' → l' = l) := by
  decide

/-! ## Cursor states: what a write and a read do -/

theorem put_bit_cursor (s : Stream) (bit : Nat) :
    (put_bit s bit).ptr = (if s.bitpos + 1 = 8 then s.ptr + 1 else s.ptr)
      ∧ (put_bit s bit).bitpos = (if s.bitpos + 1 = 8 then 0 else s.bitpos + 1) := by
  unfold put_bit
  simp only
  split_ifs <;> exact ⟨rfl, rfl⟩

theorem put_bit_CursorInv (s : Stream) (bit : Nat) (hs : CursorInv s)
    (h : s.ptr < s.buf.length) : CursorInv (put_bit s bit) := by
  obtain ⟨h8, hle, h0⟩ := hs
  obtain ⟨e1, e2⟩ := put_bit_cursor s bit
  unfold CursorInv
  rw [put_bit_length, e1, e2]
  split_ifs <;> refine ⟨by omega, by omega, fun e => by omega⟩

theorem stream_write_bits_CursorInv (v : Nat) (n : Nat) : ∀ s : Stream, CursorInv s →
    CursorInv (stream_write_bits s v n).2 := by
  induction n with
  | zero => intro s hs; simpa [stream_write_bits] using hs
  | succ n ih =>
    intro s hs
    rw [stream_write_bits]
    split_ifs with h
    · exact hs
    · exact ih _ (put_bit_CursorInv s _ hs (by omega))

theorem stream_write_bits_WInv (v : Nat) (n : Nat) : ∀ s : Stream, WInv s →
    WInv (stream_write_bits s v n).2 := by
  induction n with
  | zero => intro s hs; simpa [stream_write_bits] using hs
  | succ n ih =>
    intro s hs
    rw [stream_write_bits]
    split_ifs with h
    · exact hs
    · exact ih _ (put_bit_WInv s _ hs (by rw [Nat.and_one_is_mod]; omega) (by omega))

theorem stream_write_bits_length (v : Nat) (n : Nat) : ∀ s : Stream,
    (stream_write_bits s v n).2.buf.length = s.buf.length := by
  induction n with
  | zero => intro s; simp [stream_write_bits]
  | succ n ih =>
    intro s
    rw [stream_write_bits]
    split_ifs with h
    · rfl
    · rw [ih, put_bit_length]

theorem stream_init_write_CursorInv (buf : List Nat) : CursorInv (stream_init_write buf) := by
  unfold CursorInv stream_init_write
  simp

theorem Written_inv (s : Stream) (h : Written s) : CursorInv s ∧ WInv s := by
  induction h with
  | init buf => exact ⟨stream_init_write_CursorInv buf, stream_init_write_WInv buf⟩
  | write s v n _ ih =>
    exact ⟨stream_write_bits_CursorInv v n s ih.1, stream_write_bits_WInv v n s ih.2⟩

theorem CursorInv_pos_le (s : Stream) (hs : CursorInv s) : s.pos ≤ 8 * s.buf.length := by
  obtain ⟨h8, hle, h0⟩ := hs
  unfold Stream.pos
  by_cases e : s.ptr = s.buf.length
  · have := h0 e; omega
  · omega

theorem stream_write_bits_ok_pos (v : Nat) (n : Nat) : ∀ s : Stream,
    (stream_write_bits s v n).1 = true → (stream_write_bits s v n).2.pos = s.pos + n := by
  induction n with
  | zero => intro s _; simp [stream_write_bits]
  | succ n ih =>
    intro s
    rw [stream_write_bits]
    split_ifs with h
    · intro hf; simp at hf
    · intro hok
      rw [ih _ hok, put_bit_pos]; omega

theorem CursorInv_reader_at (s : Stream) (hs : CursorInv s) : s = reader_at s.buf s.pos := by
  obtain ⟨h8, -, -⟩ := hs
  unfold reader_at Stream.pos
  cases s with
  | mk buf ptr bitpos =>
    simp only at h8 ⊢
    congr 1 <;> omega

theorem reader_at_CursorInv (buf : List Nat) (p : Nat) (h : p ≤ 8 * buf.length) :
    CursorInv (reader_at buf p) := by
  unfold CursorInv reader_at
  simp only
  refine ⟨by omega, by omega, fun e => by omega⟩

theorem stream_read_loop_full (buf : List Nat) (n : Nat) : ∀ p r : Nat,
    r < 2 ^ 32 → p ≤ 8 * buf.length →
    stream_read_loop (reader_at buf p) r n
      = if p + n ≤ 8 * buf.length
        then (some ((r * 2 ^ n + bits_val buf p n) % 2 ^ 32), reader_at buf (p + n))
        else (none, reader_at buf (8 * buf.length)) := by
  induction n with
  | zero =>
    intro p r hr hp
    have hr' : r % 4294967296 = r := Nat.mod_eq_of_lt hr
    simp [stream_read_loop, bits_val, hp, hr']
  | succ n ih =>
    intro p r hr hp
    rw [stream_read_loop]
    by_cases hend : p = 8 * buf.length
    · have h1 : (reader_at buf p).buf.length ≤ (reader_at buf p).ptr := by
        unfold reader_at; simp only; omega
      have h2 : ¬ p + (n + 1) ≤ 8 * buf.length := by omega
      rw [if_pos h1, if_neg h2, hend]
    · have h1 : ¬ (reader_at buf p).buf.length ≤ (reader_at buf p).ptr := by
        unfold reader_at; simp only; omega
      have hb := bit_at_le_one buf p
      have hadv : advance_bit (reader_at buf p) = reader_at buf (p + 1) := by
        rw [advance_bit_eq _ (by unfold reader_at; simp only; omega), reader_at_pos]
        rfl
      have hbit : ((reader_at buf p).buf.getD (reader_at buf p).ptr 0
          >>> (7 - (reader_at buf p).bitpos)) &&& 1 = bit_at buf p := rfl
      simp only [h1, if_false, hbit, hadv, shl_or_bit _ _ hb]
      rw [ih (p + 1) _ (Nat.mod_lt _ (by norm_num)) (by omega),
        show p + 1 + n = p + (n + 1) by omega]
      by_cases hfit : p + (n + 1) ≤ 8 * buf.length
      · simp only [hfit, if_true, bits_val]
        congr 2
        have hm : (2 * r + bit_at buf p) % 2 ^ 32 * 2 ^ n + bits_val buf (p + 1) n
            ≡ (2 * r + bit_at buf p) * 2 ^ n + bits_val buf (p + 1) n [MOD 2 ^ 32] :=
          ((Nat.mod_modEq _ _).mul_right _).add_right _
        rw [show r * 2 ^ (n + 1) + (bit_at buf p * 2 ^ n + bits_val buf (p + 1) n)
            = (2 * r + bit_at buf p) * 2 ^ n + bits_val buf (p + 1) n by rw [pow_succ]; ring]
        exact hm
      · simp only [hfit, if_false]

theorem stream_read_bits_full (s : Stream) (n : Nat) (hs : CursorInv s) :
    stream_read_bits s n
      = if s.pos + n ≤ 8 * s.buf.length
        then (some (bits_val s.buf s.pos n % 2 ^ 32), reader_at s.buf (s.pos + n))
        else (none, reader_at s.buf (8 * s.buf.length)) := by
  have e := CursorInv_reader_at s hs
  have := stream_read_loop_full s.buf n s.pos 0 (by norm_num) (CursorInv_pos_le s hs)
  unfold stream_read_bits
  rw [← e] at this
  simpa using this

theorem stream_read_bits_CursorInv (s : Stream) (n : Nat) (hs : CursorInv s) :
    CursorInv (stream_read_bits s n).2 := by
  rw [stream_read_bits_full s n hs]
  split_ifs with h
  · exact reader_at_CursorInv _ _ h
  · exact reader_at_CursorInv _ _ (Nat.le_refl _)

theorem Reading_inv (s : Stream) (h : Reading s) : CursorInv s := by
  induction h with
  | init buf => unfold CursorInv stream_init_read; simp
  | read s n _ ih => exact stream_read_bits_CursorInv s n ih

theorem bits_val_mod_small (buf : List Nat) (p n : Nat) (hn : n ≤ 32) :
    bits_val buf p n % 2 ^ 32 = bits_val buf p n := by
  apply Nat.mod_eq_of_lt
  exact Nat.lt_of_lt_of_le (bits_val_lt buf n p) (Nat.pow_le_pow_right (by norm_num) hn)

theorem stream_write_bits_run_eq (v : Nat) (n : Nat) (hn : n ≤ 32) : ∀ s : Stream,
    stream_write_bits_run s v n = some (stream_write_bits s v n) := by
  induction n with
  | zero => intro s; rfl
  | succ n ih =>
    intro s
    rw [stream_write_bits_run, stream_write_bits]
    split_ifs with h1 h2
    · rfl
    · omega
    · exact ih (by omega) _

theorem stream_write_bits_run_undef (v : Nat) (n : Nat) (hn : 32 < n) (s : Stream)
    (hs : s.ptr < s.buf.length) : stream_write_bits_run s v n = none := by
  obtain ⟨m, rfl⟩ : ∃ m, n = m + 1 := ⟨n - 1, by omega⟩
  rw [stream_write_bits_run, if_neg (by omega), if_pos (by omega)]

/-- C15 (as amended): in a writer state with at least `n` bits left before the
bound and `n ≤ 32`, the call `stream_write_bits(s, value, n)` is defined and
succeeds, sets the bit at absolute position `p + k` (byte `(p + k) / 8`, bit
`7 - (p + k) % 8`) to bit `n - 1 - k` of `value` for every `k < n`, leaves each
bit before `p` as it was, and moves the cursor to `p + n`, where `p` is the
cursor position before the call. -/
theorem write_bits_places_bits (s : Stream) (value n : Nat) (hs : Written s) (h32 : n ≤ 32)
    (hfit : n ≤ 8 * s.buf.length - s.pos) :
    ∃ s', stream_write_bits_run s value n = some (true, s')
      ∧ (∀ k, k < n →
          (s'.buf.getD ((s.pos + k) / 8) 0 >>> (7 - (s.pos + k) % 8)) &&& 1
            = (value >>> (n - 1 - k)) &&& 1)
      ∧ (∀ k, k < s.pos → bit_at s'.buf k = bit_at s.buf k)
      ∧ s'.pos = s.pos + n := by
  obtain ⟨hc, hw⟩ := Written_inv s hs
  have hp := CursorInv_pos_le s hc
  obtain ⟨a1, -, -, a4, a5, a6⟩ := stream_write_bits_spec value n s hw (by omega)
  refine ⟨(stream_write_bits s value n).2, ?_, a6, a5, a4⟩
  rw [stream_write_bits_run_eq value n h32 s, ← a1]

theorem write_bits_places_bits_witness :
    ∃ s', stream_write_bits_run (stream_init_write [255, 255]) 0x2A5 10 = some (true, s')
      ∧ (∀ k, k < 10 →
          (s'.buf.getD (((stream_init_write [255, 255]).pos + k) / 8) 0
              >>> (7 - ((stream_init_write [255, 255]).pos + k) % 8)) &&& 1
            = (0x2A5 >>> (10 - 1 - k)) &&& 1)
      ∧ (∀ k, k < (stream_init_write [255, 255]).pos →
          bit_at s'.buf k = bit_at (stream_init_write [255, 255]).buf k)
      ∧ s'.pos = (stream_init_write [255, 255]).pos + 10 :=
  write_bits_places_bits (stream_init_write [255, 255]) 0x2A5 10 (Written.init _) (by decide)
    (by decide)

/-- C15 as stated fails beyond the width of `value`: a fresh writer over five
bytes has 40 bits left, yet the call with `n = 33` shifts its 32-bit `value`
by 32 in the first iteration and has no defined result, for any `value`; with
32 bits the same call is defined and writes the bits of `value`. -/
theorem write_bits_beyond_32 :
    33 ≤ 8 * (stream_init_write [0, 0, 0, 0, 0]).buf.length - (stream_init_write [0, 0, 0, 0, 0]).pos
      ∧ (∀ value, stream_write_bits_run (stream_init_write [0, 0, 0, 0, 0]) value 33 = none)
      ∧ stream_write_bits_run (stream_init_write [0, 0, 0, 0, 0]) 1 32
          = some (true, ⟨[0, 0, 0, 1, 0], 4, 0⟩) := by
  refine ⟨by decide, fun value => ?_, by decide⟩
  exact stream_write_bits_run_undef value 33 (by decide) _ (by decide)

/-- C17 (as amended): in every reader state and for every `n`,
`stream_read_bits` returns failure exactly when fewer than `n` bits remain
before the end of the slice; on success the cursor has advanced by `n` bits
over the same slice and the value returned is that of the next `n` bits, first
bit most significant, reduced modulo `2 ^ 32`: the `n` bits themselves when
`n ≤ 32`. -/
theorem read_bits_spec (s : Stream) (n : Nat) (hs : Reading s) :
    ((stream_read_bits s n).1 = none ↔ 8 * s.buf.length - s.pos < n)
      ∧ (n ≤ 8 * s.buf.length - s.pos →
          (stream_read_bits s n).1 = some (bits_val s.buf s.pos n % 2 ^ 32)
            ∧ (stream_read_bits s n).2.pos = s.pos + n
            ∧ (stream_read_bits s n).2.buf = s.buf)
      ∧ (n ≤ 32 → bits_val s.buf s.pos n % 2 ^ 32 = bits_val s.buf s.pos n) := by
  have hc := Reading_inv s hs
  have hp := CursorInv_pos_le s hc
  rw [stream_read_bits_full s n hc]
  refine ⟨?_, ?_, bits_val_mod_small s.buf s.pos n⟩
  · split_ifs with h
    · simp; omega
    · simp; omega
  · intro hfit
    rw [if_pos (by omega)]
    exact ⟨rfl, reader_at_pos _ _, rfl⟩

theorem read_bits_spec_witness :
    ((stream_read_bits (stream_init_read [0xA5, 0x0F]) 12).1 = none
        ↔ 8 * (stream_init_read [0xA5, 0x0F]).buf.length - (stream_init_read [0xA5, 0x0F]).pos < 12)
      ∧ (12 ≤ 8 * (stream_init_read [0xA5, 0x0F]).buf.length - (stream_init_read [0xA5, 0x0F]).pos →
          (stream_read_bits (stream_init_read [0xA5, 0x0F]) 12).1
              = some (bits_val (stream_init_read [0xA5, 0x0F]).buf
                  (stream_init_read [0xA5, 0x0F]).pos 12 % 2 ^ 32)
            ∧ (stream_read_bits (stream_init_read [0xA5, 0x0F]) 12).2.pos
                = (stream_init_read [0xA5, 0x0F]).pos + 12
            ∧ (stream_read_bits (stream_init_read [0xA5, 0x0F]) 12).2.buf
                = (stream_init_read [0xA5, 0x0F]).buf)
      ∧ (12 ≤ 32 → bits_val (stream_init_read [0xA5, 0x0F]).buf
            (stream_init_read [0xA5, 0x0F]).pos 12 % 2 ^ 32
          = bits_val (stream_init_read [0xA5, 0x0F]).buf (stream_init_read [0xA5, 0x0F]).pos 12) :=
  read_bits_spec (stream_init_read [0xA5, 0x0F]) 12 (Reading.init _)

/-- C17 as stated fails for `n = 33`: the next 33 bits of the slice
80 00 00 00 00 are a one followed by 32 zeros, of value `2 ^ 32`, and the
successful read returns 0. -/
theorem read_bits_beyond_32 :
    Reading (stream_init_read [0x80, 0, 0, 0, 0])
      ∧ (stream_read_bits (stream_init_read [0x80, 0, 0, 0, 0]) 33).1 = some 0
      ∧ bits_val [0x80, 0, 0, 0, 0] 0 33 = 2 ^ 32 :=
  ⟨Reading.init _, by decide, by decide⟩

theorem write_fields_WInv : ∀ (fs : List (Nat × Nat)) (s : Stream), WInv s →
    WInv (write_fields s fs).2 := by
  intro fs
  induction fs with
  | nil => intro s hs; simpa [write_fields] using hs
  | cons f fs ih =>
    intro s hs
    rw [write_fields]
    split_ifs with h
    · exact stream_write_bits_WInv f.1 f.2 s hs
    · exact ih _ (stream_write_bits_WInv f.1 f.2 s hs)

theorem write_fields_ok_pos : ∀ (fs : List (Nat × Nat)) (s : Stream),
    (write_fields s fs).1 = true → (write_fields s fs).2.pos = s.pos + fields_width fs := by
  intro fs
  induction fs with
  | nil => intro s _; simp [write_fields, fields_width]
  | cons f fs ih =>
    intro s
    have hw : fields_width (f :: fs) = f.2 + fields_width fs := by simp [fields_width]
    rw [write_fields]
    split_ifs with h
    · intro hf; simp at hf
    · intro hok
      have h1 : (stream_write_bits s f.1 f.2).1 = true := by simpa using h
      rw [ih _ hok, stream_write_bits_ok_pos f.1 f.2 s h1, hw]; omega

theorem WInv_tail_zero (s : Stream) (hs : WInv s) (k : Nat) (h1 : s.pos ≤ k)
    (h2 : k < 8 * ((s.pos + 7) / 8)) : bit_at s.buf k = 0 := by
  obtain ⟨h8, hz⟩ := hs
  unfold Stream.pos at h1 h2
  have hk : k / 8 = s.ptr := by omega
  rw [bit_at_eq_testBit, hk, hz (7 - k % 8) (by omega)]
  rfl

theorem stream_bytes_used_run_eq (s : Stream) (h : s.pos + 7 ≤ INT_MAX) :
    stream_bytes_used_run s = some ((stream_bytes_used s : Nat) : Int) := by
  unfold Stream.pos INT_MAX at h
  have hw : wrap_int ((s.ptr : Int) * 8 + (s.bitpos : Int)) = ((s.ptr * 8 + s.bitpos : Nat) : Int) := by
    unfold wrap_int; push_cast; omega
  unfold stream_bytes_used_run stream_bytes_used
  simp only [hw]
  have h2 : ¬ ((INT_MAX : Int) < ((s.ptr * 8 + s.bitpos : Nat) : Int) + 7) := by
    unfold INT_MAX; push_cast; omega
  rw [if_neg h2]
  rfl

/-- C18 inside the `int` range: after a writer initialised over any buffer has
successfully written fields of `B` bits in total, the byte count of
`stream_bytes_used` is `ceil(B / 8)`, which its `int` arithmetic returns
whenever `B + 7` is at most `INT_MAX`, and every bit position from `B` up to
the end of the last used byte holds 0. -/
theorem bytes_used_after_writes (buf : List Nat) (fields : List (Nat × Nat))
    (hok : (write_fields (stream_init_write buf) fields).1 = true) :
    stream_bytes_used (write_fields (stream_init_write buf) fields).2
        = (fields_width fields + 7) / 8
      ∧ (fields_width fields + 7 ≤ INT_MAX →
          stream_bytes_used_run (write_fields (stream_init_write buf) fields).2
            = some (((fields_width fields + 7) / 8 : Nat) : Int))
      ∧ ∀ k, fields_width fields ≤ k → k < 8 * ((fields_width fields + 7) / 8) →
          bit_at (write_fields (stream_init_write buf) fields).2.buf k = 0 := by
  have hp := write_fields_ok_pos fields _ hok
  rw [stream_init_write_pos, Nat.zero_add] at hp
  have hw := write_fields_WInv fields _ (stream_init_write_WInv buf)
  have hu : stream_bytes_used (write_fields (stream_init_write buf) fields).2
      = (fields_width fields + 7) / 8 := by
    unfold stream_bytes_used
    unfold Stream.pos at hp
    rw [hp]
  refine ⟨hu, fun hb => ?_, ?_⟩
  · rw [stream_bytes_used_run_eq _ (by rw [hp]; exact hb), hu]
  · intro k h1 h2
    exact WInv_tail_zero _ hw k (by rw [hp]; exact h1) (by rw [hp]; exact h2)

theorem bytes_used_after_writes_witness :
    stream_bytes_used (write_fields (stream_init_write [255, 255, 255]) [(6, 3), (0x155, 10)]).2
        = (fields_width [(6, 3), (0x155, 10)] + 7) / 8
      ∧ (fields_width [(6, 3), (0x155, 10)] + 7 ≤ INT_MAX →
          stream_bytes_used_run
              (write_fields (stream_init_write [255, 255, 255]) [(6, 3), (0x155, 10)]).2
            = some (((fields_width [(6, 3), (0x155, 10)] + 7) / 8 : Nat) : Int))
      ∧ ∀ k, fields_width [(6, 3), (0x155, 10)] ≤ k →
          k < 8 * ((fields_width [(6, 3), (0x155, 10)] + 7) / 8) →
          bit_at (write_fields (stream_init_write [255, 255, 255]) [(6, 3), (0x155, 10)]).2.buf k
            = 0 :=
  bytes_used_after_writes [255, 255, 255] [(6, 3), (0x155, 10)] (by decide)

theorem quant_fill_spec (bs : List Nat) (hok : widths_ok bs) :
    ∀ (rest : List Nat) (i : Nat) (q : Quantizer), bs.drop i = rest →
      (∀ j, j < i → q.bits j = bs.getD j 0) →
      (∀ j, j < i ∨ j = 0 → q.bounds j = spec_bounds bs j) →
      ∃ q', quant_fill q i rest = some q'
        ∧ (∀ j, j < bs.length → q'.bits j = bs.getD j 0)
        ∧ (∀ j, j < bs.length ∨ j = 0 → q'.bounds j = spec_bounds bs j) := by
  intro rest
  induction rest with
  | nil =>
    intro i q hd hb hbd
    have hlen : bs.length ≤ i := by
      by_contra hc
      have hi : i < bs.length := by omega
      rw [List.drop_eq_getElem_cons hi] at hd
      exact List.cons_ne_nil _ _ hd
    refine ⟨q, rfl, fun j hj => hb j (by omega), fun j hj => ?_⟩
    rcases hj with hj | hj
    · exact hbd j (Or.inl (by omega))
    · exact hbd j (Or.inr hj)
  | cons b rest ih =>
    intro i q hd hb hbd
    have hi : i < bs.length := by
      by_contra hc
      rw [List.drop_of_length_le (by omega)] at hd
      exact absurd hd (by simp)
    rw [List.drop_eq_getElem_cons hi] at hd
    have hbv : bs.getD i 0 = b := by
      have := (List.cons.inj hd).1
      simp [List.getD_eq_getElem?_getD, List.getElem?_eq_getElem hi, this]
    have hrest : bs.drop (i + 1) = rest := (List.cons.inj hd).2
    rw [quant_fill]
    by_cases h0 : 0 < i
    · have hprev : Function.update q.bits i b (i - 1) = bs.getD (i - 1) 0 := by
        rw [Function.update_noteq (by omega)]
        exact hb (i - 1) (by omega)
      have hw := hok (i - 1) (by omega)
      rw [show i - 1 + 1 = i by omega] at hw
      have hsb : spec_bounds bs i = spec_bounds bs (i - 1) + 2 ^ bs.getD (i - 1) 0 := by
        conv_lhs => rw [show i = (i - 1) + 1 by omega]
        rfl
      have hbprev : q.bounds (i - 1) = spec_bounds bs (i - 1) := hbd (i - 1) (Or.inl (by omega))
      have hcond : ¬ (31 ≤ Function.update q.bits i b (i - 1)
          ∨ INT_MAX < q.bounds (i - 1) + 2 ^ Function.update q.bits i b (i - 1)) := by
        rw [hprev, hbprev, ← hsb]; omega
      have hstep : quant_step q i b = some ⟨q.levels, Function.update q.bits i b,
          Function.update q.bounds i
            (q.bounds (i - 1) + 2 ^ Function.update q.bits i b (i - 1))⟩ := by
        unfold quant_step
        simp only [h0, if_true, hcond, if_false]
      rw [hstep]
      apply ih (i + 1) _ hrest
      · intro j hj
        by_cases e : j = i
        · rw [e]; simp only [Function.update_same]; exact hbv.symm
        · simp only [Function.update_noteq e]; exact hb j (by omega)
      · intro j hj
        by_cases e : j = i
        · rw [e]; simp only [Function.update_same]; rw [hprev, hbprev, ← hsb]
        · simp only [Function.update_noteq e]
          rcases hj with hj | hj
          · exact hbd j (Or.inl (by omega))
          · exact hbd j (Or.inr hj)
    · have hi0 : i = 0 := by omega
      have hstep : quant_step q i b = some ⟨q.levels, Function.update q.bits i b, q.bounds⟩ := by
        unfold quant_step
        simp only [h0, if_false]
      rw [hstep]
      apply ih (i + 1) _ hrest
      · intro j hj
        by_cases e : j = i
        · rw [e]; simp only [Function.update_same]; exact hbv.symm
        · simp only [Function.update_noteq e]; exact hb j (by omega)
      · intro j hj
        exact hbd j (Or.inr (by omega))

theorem widths_ok_std : widths_ok [1, 2, 4, 8] := by
  intro i hi
  have h4 : i + 1 < 4 := hi
  have hi' : i < 3 := by omega
  interval_cases i <;> decide

set_option maxRecDepth 100000 in
/-- C20 (as amended): from at most `NUM_LEVELS` bit-width bytes of a header in
which every width that is shifted by is below 31 and every bound stays within
`INT_MAX`, the bounds `diftopnm` rebuilds are those of the recurrence
`bound[0] = 0`, `bound[i] = bound[i-1] + 2 ^ bits[i-1]`, a function of the
array alone, whatever the quantizer storage held before; the widths 1, 2, 4, 8
that `pnmtodif` writes are such an array, and for them the bounds are the
encoder's `level_bound` table 0, 2, 6, 22 at every level. -/
theorem quant_bounds_from_widths (u : Uninit) (bs : List Nat) (_hlen : bs.length ≤ NUM_LEVELS)
    (hok : widths_ok bs) :
    ∃ q, quant_build u bs = some q
      ∧ (∀ i, i < bs.length → q.bits i = bs.getD i 0 ∧ q.bounds i = spec_bounds bs i)
      ∧ q.bounds 0 = 0
      ∧ ((List.range NUM_LEVELS).map (fun i => level_bits i % 256) = [1, 2, 4, 8]
          ∧ widths_ok [1, 2, 4, 8]
          ∧ ∀ l, l < NUM_LEVELS → spec_bounds [1, 2, 4, 8] l = level_bound l) := by
  obtain ⟨q, h1, h2, h3⟩ := quant_fill_spec bs hok bs 0
    ⟨bs.length, u.bits, Function.update u.bounds 0 0⟩ (by simp)
    (fun j hj => absurd hj (Nat.not_lt_zero _))
    (fun j hj => by
      rcases hj with hj | hj
      · exact absurd hj (Nat.not_lt_zero _)
      · rw [hj]; simp [spec_bounds])
  exact ⟨q, h1, fun i hi => ⟨h2 i hi, h3 i (Or.inl hi)⟩, h3 0 (Or.inr rfl), by decide,
    widths_ok_std, by decide⟩

theorem quant_bounds_from_widths_witness :
    ∃ q, quant_build ⟨fun _ => 7, fun _ => 9, fun _ => 11⟩ [1, 2, 4, 8] = some q
      ∧ (∀ i, i < [1, 2, 4, 8].length →
          q.bits i = [1, 2, 4, 8].getD i 0 ∧ q.bounds i = spec_bounds [1, 2, 4, 8] i)
      ∧ q.bounds 0 = 0
      ∧ ((List.range NUM_LEVELS).map (fun i => level_bits i % 256) = [1, 2, 4, 8]
          ∧ widths_ok [1, 2, 4, 8]
          ∧ ∀ l, l < NUM_LEVELS → spec_bounds [1, 2, 4, 8] l = level_bound l) :=
  quant_bounds_from_widths ⟨fun _ => 7, fun _ => 9, fun _ => 11⟩ [1, 2, 4, 8] (by decide)
    widths_ok_std

/-- C20 as stated fails for widths the `int` arithmetic of the rebuild does not
cover: for the header widths 40, 2, 4, 8 the recurrence gives
`bounds[1] = 2 ^ 40`, beyond `INT_MAX`, while `diftopnm` evaluates `1 << 40` on
an `int`, which has no defined result, whatever the quantizer storage held. -/
theorem widths_beyond_int :
    INT_MAX < spec_bounds [40, 2, 4, 8] 1
      ∧ (∀ u, quant_build u [40, 2, 4, 8] = none)
      ∧ (∀ u, diftopnm_run u [0xFF, 0xD1, 0x01, 0x00, 0x01, 0x00, 0x04, 40, 2, 4, 8, 0x05]
          = Run.undef) := by
  refine ⟨by decide, fun u => rfl, fun u => rfl⟩

/-! ## Writer capacity and zero dimensions -/

theorem encode_sample_ok_true (R : List Nat) (ch L wh m c : Nat) (st : EncState)
    (h : EncInv R ch L m c st) (hc : c < ch) (hm : m + 1 < wh)
    (hcap : 11 * ((wh - 1) * ch) ≤ 8 * L) :
    encode_sample_ok R ch (m + 1) c st = true := by
  obtain ⟨hw, hl, hp, -, hprev⟩ := h
  have hmul : (m + 1) * ch ≤ (wh - 1) * ch := Nat.mul_le_mul_right _ (by omega)
  have hsm : (m + 1) * ch = m * ch + ch := by ring
  have henc : zigzag_encode (((R.getD ((m + 1) * ch + c) 0 : Nat) : Int) - st.prev.getD c 0)
      = resid R ch (m * ch + c) := by
    unfold resid
    rw [hprev.2.2 c (Nat.le_refl _) hc, show ch + (m * ch + c) = (m + 1) * ch + c by omega]
  have hoff := code_off_le R ch (m * ch + c)
  have hlen := code_len_le (resid R ch (m * ch + c))
  unfold encode_sample_ok
  rw [henc]
  exact (encode_value_spec st.stream (resid R ch (m * ch + c)) hw (by rw [hp, hl]; omega)).1

theorem encode_pixel_ok_inv (R : List Nat) (ch L wh m : Nat) (p : EncState × Bool)
    (h : EncInv R ch L m 0 p.1) (hp : p.2 = true) (h3 : ch ≤ 3) (hm : m + 1 < wh)
    (hcap : 11 * ((wh - 1) * ch) ≤ 8 * L) :
    EncInv R ch L (m + 1) 0 (encode_pixel_ok R ch (m + 1) p).1
      ∧ (encode_pixel_ok R ch (m + 1) p).2 = true := by
  have key : ∀ c, c ≤ ch →
      EncInv R ch L m c ((List.range c).foldl
        (fun p c => (encode_sample R ch (m + 1) c p.1,
          p.2 && encode_sample_ok R ch (m + 1) c p.1)) p).1
      ∧ ((List.range c).foldl
        (fun p c => (encode_sample R ch (m + 1) c p.1,
          p.2 && encode_sample_ok R ch (m + 1) c p.1)) p).2 = true := by
    intro c
    induction c with
    | zero => intro _; exact ⟨by simpa using h, by simpa using hp⟩
    | succ c ih =>
      intro hc
      obtain ⟨i1, i2⟩ := ih (by omega)
      rw [List.range_succ, List.foldl_append]
      simp only [List.foldl_cons, List.foldl_nil]
      refine ⟨encode_sample_inv R ch L wh m c _ i1 (by omega) h3 hm hcap, ?_⟩
      rw [i2, encode_sample_ok_true R ch L wh m c _ i1 (by omega) hm hcap]
      rfl
  obtain ⟨⟨a1, a2, a3, a4, a5⟩, b⟩ := key ch (Nat.le_refl _)
  have e : (m + 1) * ch + 0 = m * ch + ch := by ring
  exact ⟨⟨a1, a2, by rw [e]; exact a3, by rw [e]; exact a4, PrevInv_next R ch m _ a5⟩, b⟩

theorem encode_loop_ok_inv (R : List Nat) (ch L wh : Nat) (p : EncState × Bool)
    (h : EncInv R ch L 0 0 p.1) (hp : p.2 = true) (h3 : ch ≤ 3)
    (hcap : 11 * ((wh - 1) * ch) ≤ 8 * L) :
    (encode_loop_ok R ch wh p).2 = true := by
  have key : ∀ k, k ≤ wh - 1 →
      EncInv R ch L k 0
        ((List.range' 1 k).foldl (fun p i => encode_pixel_ok R ch i p) p).1
      ∧ ((List.range' 1 k).foldl (fun p i => encode_pixel_ok R ch i p) p).2 = true := by
    intro k
    induction k with
    | zero => intro _; exact ⟨by simpa using h, by simpa using hp⟩
    | succ k ih =>
      intro hk
      obtain ⟨i1, i2⟩ := ih (by omega)
      rw [List.range'_concat, List.foldl_append]
      simp only [List.foldl_cons, List.foldl_nil]
      rw [show 1 + 1 * k = k + 1 by omega]
      exact encode_pixel_ok_inv R ch L wh k _ i1 i2 h3 (by omega) hcap
  exact (key (wh - 1) (Nat.le_refl _)).2

theorem encode_writes_succeed (R : List Nat) (ch wh total : Nat) (h3 : ch ≤ 3)
    (hwh : 1 ≤ wh) (htot : total = wh * ch) :
    encode_writes_ok R ch wh total = true := by
  have hsplit : wh * ch = (wh - 1) * ch + ch := by
    have : wh = (wh - 1) + 1 := by omega
    conv_lhs => rw [this]
    ring
  have hcap : 11 * ((wh - 1) * ch) ≤ 8 * ((total * 11 + 7) / 8 + 16) := by omega
  unfold encode_writes_ok
  apply encode_loop_ok_inv R ch _ wh _ ?_ rfl h3 hcap
  refine ⟨stream_init_write_WInv _, by simp [stream_init_write_length], ?_, ?_,
    prev_seed_inv R ch h3⟩
  · simp [stream_init_write_pos, code_off]
  · intro j hj; simp at hj

theorem code_off_ge (R : List Nat) (ch n : Nat) : 2 * n ≤ code_off R ch n := by
  induction n with
  | zero => simp [code_off]
  | succ n ih =>
    have := code_len_pos (resid R ch n)
    simp only [code_off]; omega

/-- C13, at the failing input: for the 65535 x 5958 grayscale picture the
size `total * 11 + 7` does not fit `int`, so the run of `pnmtodif` is
undefined; on a two's-complement target the buffer gets 8208 bytes, fewer
bits than the coded samples need, and writes take the overflow branch. -/
theorem writer_capacity_beyond_int :
    pnmtodif_run ⟨65535, 5958, 1, List.replicate (65535 * 5958 * 1) 0⟩ = Run.undef
      ∧ (wrap_int (65535 * 5958 * 1 * 11 + 7)).tdiv 8 + 16 = 8208
      ∧ 8 * 8208 < code_off (reduced_of ⟨65535, 5958, 1, List.replicate (65535 * 5958 * 1) 0⟩)
          1 ((65535 * 5958 - 1) * 1) := by
  refine ⟨pnmtodif_run_overflow 65535 5958 1 _ (by decide) (by decide) (by decide) (by decide)
    (List.length_replicate _ _) (by decide), by decide, ?_⟩
  have := code_off_ge (reduced_of ⟨65535, 5958, 1, List.replicate (65535 * 5958 * 1) 0⟩) 1
    ((65535 * 5958 - 1) * 1)
  omega

theorem diftopnm_run_zero_dim (u : Uninit) (m0 m1 w0 w1 h0 h1 nl : Nat) (rest : List Nat)
    (hz : read_u16 w0 w1 * read_u16 h0 h1 = 0) :
    diftopnm_run u (m0 :: m1 :: w0 :: w1 :: h0 :: h1 :: nl :: rest) = Run.undef := by
  unfold diftopnm_run
  simp only [hz, Nat.zero_mul]
  split_ifs <;>
    first
      | rfl
      | (cases quant_build u (List.take nl rest) <;> rfl)
      | (exfalso; simp_all)

/-- C14, at the failing inputs: neither converter tests a dimension.  With
width or height 0 the encoder reads its seed outside the empty sample buffer
and the decoder stores its seed outside the empty `red`; no run returns the
failure value. -/
theorem zero_dimensions_unchecked :
    pnmtodif_run ⟨0, 5, 1, []⟩ = Run.undef
      ∧ pnmtodif_run ⟨5, 0, 3, []⟩ = Run.undef
      ∧ ∀ u : Uninit,
        diftopnm_run u [0xFF, 0xD1, 0x00, 0x00, 0x05, 0x00, 0x04, 0x01, 0x02, 0x04, 0x08, 0x05]
            = Run.undef
          ∧ diftopnm_run u
              [0xFF, 0xD3, 0x05, 0x00, 0x00, 0x00, 0x04, 0x01, 0x02, 0x04, 0x08, 0x05, 0x06, 0x07]
            = Run.undef :=
  ⟨by decide, by decide, fun u =>
    ⟨diftopnm_run_zero_dim u _ _ _ _ _ _ _ _ (by decide),
      diftopnm_run_zero_dim u _ _ _ _ _ _ _ _ (by decide)⟩⟩

/-! ## Level count and cursor invariant (C21, C22) -/

theorem stream_init_read_CursorInv (buf : List Nat) : CursorInv (stream_init_read buf) := by
  unfold CursorInv stream_init_read
  simp

/-- C22: every stream state reached from `stream_init_write` or
`stream_init_read` by any sequence of `stream_write_bits` and
`stream_read_bits` calls has its bit offset below 8, its byte position at most
the buffer bound, and bit offset 0 when the byte position is the bound. -/
theorem cursor_invariant (s : Stream) (hs : Reachable s) :
    s.bitpos < 8 ∧ s.ptr ≤ s.buf.length ∧ (s.ptr = s.buf.length → s.bitpos = 0) := by
  have h : CursorInv s := by
    induction hs with
    | init_write buf => exact stream_init_write_CursorInv buf
    | init_read buf => exact stream_init_read_CursorInv buf
    | write s v n _ ih => exact stream_write_bits_CursorInv v n s ih
    | read s n _ ih => exact stream_read_bits_CursorInv s n ih
  exact h

theorem cursor_invariant_witness :
    (stream_read_bits (stream_write_bits (stream_init_write [9, 9]) 0x1FF 9).2 20).2.bitpos < 8
      ∧ (stream_read_bits (stream_write_bits (stream_init_write [9, 9]) 0x1FF 9).2 20).2.ptr
          ≤ (stream_read_bits (stream_write_bits (stream_init_write [9, 9]) 0x1FF 9).2 20).2.buf.length
      ∧ ((stream_read_bits (stream_write_bits (stream_init_write [9, 9]) 0x1FF 9).2 20).2.ptr
          = (stream_read_bits (stream_write_bits (stream_init_write [9, 9]) 0x1FF 9).2 20).2.buf.length
        → (stream_read_bits (stream_write_bits (stream_init_write [9, 9]) 0x1FF 9).2 20).2.bitpos = 0) :=
  cursor_invariant _ (Reachable.read _ 20 (Reachable.write _ 0x1FF 9 (Reachable.init_write [9, 9])))

theorem pnmtodif_run_congr (pic pic' : Picture) (hw : pic'.w = pic.w) (hh : pic'.h = pic.h)
    (hc : pic'.channels = pic.channels)
    (hs : pic'.pixels.map (fun p => p >>> 1) = pic.pixels.map (fun p => p >>> 1)) :
    pnmtodif_run pic' = pnmtodif_run pic := by
  have hlen : pic'.pixels.length = pic.pixels.length := by
    have := congrArg List.length hs
    simpa using this
  have hred : ∀ n, (pic'.pixels.take n).map (fun p => (p >>> 1) % 256)
      = (pic.pixels.take n).map (fun p => (p >>> 1) % 256) := by
    intro n
    have e : ∀ l : List Nat, (l.take n).map (fun p => (p >>> 1) % 256)
        = ((l.map (fun p => p >>> 1)).take n).map (fun r => r % 256) := by
      intro l
      rw [← List.map_take, List.map_map]
      rfl
    rw [e, e, hs]
  have hhead : dif_header pic' = dif_header pic := by
    unfold dif_header
    rw [hw, hh, hc]
  unfold pnmtodif_run
  simp only [hw, hh, hc, hlen, hred, hhead]

set_option maxRecDepth 100000 in
theorem clear_lsb_shift (p : Nat) (h : p < 256) : (p &&& 0xFE) >>> 1 = p >>> 1 := by
  revert p
  decide

/-- C23 where `pnmtodif` is defined: two pictures with the same dimensions and
channel count whose samples agree after a right shift by one bit have the
same run of `pnmtodif`, with no condition on the pictures; and when `pic` is
valid and its worst-case bit count `w * h * c * 11 + 7` is at most `INT_MAX`,
encoding the picture decoded from its encoding gives back the same DIF
bytes. -/
theorem encode_ignores_lsb (pic pic' : Picture)
    (hw : pic'.w = pic.w) (hh : pic'.h = pic.h) (hc : pic'.channels = pic.channels)
    (hs : pic'.pixels.map (fun p => p >>> 1) = pic.pixels.map (fun p => p >>> 1)) :
    pnmtodif_run pic' = pnmtodif_run pic
      ∧ (ValidPicture pic → FitsInt pic →
          ∃ dif out, pnmtodif_run pic = Run.ret 0 (some dif)
            ∧ (∀ u, diftopnm_run u dif = Run.ret 0 (some out))
            ∧ pnmtodif_run out = Run.ret 0 (some dif)) := by
  refine ⟨pnmtodif_run_congr pic pic' hw hh hc hs, fun hv hf => ?_⟩
  obtain ⟨dif, h1, h2⟩ := roundtrip_run pic hv hf
  refine ⟨dif, _, h1, h2, ?_⟩
  rw [← h1]
  refine pnmtodif_run_congr pic
    ⟨pic.w, pic.h, pic.channels, pic.pixels.map (fun p => p &&& 0xFE)⟩ rfl rfl rfl ?_
  show List.map (fun p => p >>> 1) (pic.pixels.map (fun p => p &&& 0xFE))
    = List.map (fun p => p >>> 1) pic.pixels
  rw [List.map_map]
  apply List.map_congr_left
  intro p hp
  exact clear_lsb_shift p (hv.2.2.2.2.2.2 p hp)

theorem encode_ignores_lsb_witness :
    pnmtodif_run ⟨1, 2, 1, [11, 13]⟩ = pnmtodif_run ⟨1, 2, 1, [10, 12]⟩
      ∧ ∃ dif out, pnmtodif_run ⟨1, 2, 1, [10, 12]⟩ = Run.ret 0 (some dif)
        ∧ (∀ u, diftopnm_run u dif = Run.ret 0 (some out))
        ∧ pnmtodif_run out = Run.ret 0 (some dif) :=
  ⟨(encode_ignores_lsb ⟨1, 2, 1, [10, 12]⟩ ⟨1, 2, 1, [11, 13]⟩ rfl rfl rfl (by decide)).1,
    (encode_ignores_lsb ⟨1, 2, 1, [10, 12]⟩ ⟨1, 2, 1, [11, 13]⟩ rfl rfl rfl (by decide)).2
      (by decide) (by decide)⟩

/-- C23, at the failing input: the 40000 x 5000 grayscale picture is valid and
its 200000000 samples fit `int`, but the size `total * 11 + 7` that `pnmtodif`
computes for its buffer exceeds `INT_MAX`: the run is undefined (with
two's-complement wrap-around the size is negative and no buffer is allocated)
and the picture has no encoding to decode and encode again. -/
theorem idempotence_beyond_int :
    ValidPicture ⟨40000, 5000, 1, List.replicate (40000 * 5000 * 1) 0⟩
      ∧ 40000 * 5000 * 1 ≤ INT_MAX
      ∧ INT_MAX < 40000 * 5000 * 1 * 11 + 7
      ∧ (wrap_int (40000 * 5000 * 1 * 11 + 7)).tdiv 8 + 16 < 0
      ∧ pnmtodif_run ⟨40000, 5000, 1, List.replicate (40000 * 5000 * 1) 0⟩ = Run.undef
      ∧ ∀ dif, pnmtodif_run ⟨40000, 5000, 1, List.replicate (40000 * 5000 * 1) 0⟩
          ≠ Run.ret 0 (some dif) := by
  have h := pnmtodif_run_overflow 40000 5000 1 (List.replicate (40000 * 5000 * 1) 0)
    (by decide) (by decide) (by decide) (by decide) (List.length_replicate _ _) (by decide)
  refine ⟨⟨by decide, by decide, by decide, by decide, Or.inl rfl, List.length_replicate _ _,
      replicate_zero_bytes _⟩, by decide, by decide, by decide, h,
    fun dif hd => by rw [h] at hd; exact Run.noConfusion hd⟩

/-! ## Length of the encoding (C24) -/

theorem pnmtodif_run_of_fits (pic : Picture) (hw1 : 1 ≤ pic.w) (hh1 : 1 ≤ pic.h)
    (hc : pic.channels = 1 ∨ pic.channels = 3)
    (hlen : pic.pixels.length = pic.w * pic.h * pic.channels) (hf : FitsInt pic) :
    pnmtodif_run pic
      = Run.ret 0 (some (dif_header pic ++ (reduced_of pic).take pic.channels
          ++ encode_payload (reduced_of pic) pic.channels (pic.w * pic.h)
              (pic.w * pic.h * pic.channels))) := by
  unfold FitsInt at hf
  have hwh : 1 ≤ pic.w * pic.h := Nat.mul_pos hw1 hh1
  have hch : 1 ≤ pic.channels ∧ pic.channels ≤ 3 := by omega
  have htot : pic.w * pic.h ≤ pic.w * pic.h * pic.channels := Nat.le_mul_of_pos_right _ hch.1
  have htot2 : pic.channels ≤ pic.w * pic.h * pic.channels := Nat.le_mul_of_pos_left _ hwh
  have g1 : ¬ (INT_MAX < pic.w * pic.h ∨ INT_MAX < pic.w * pic.h * pic.channels) := by omega
  have g2 : ¬ (pic.pixels.length < pic.w * pic.h * pic.channels) := by omega
  have g3 : ¬ (3 < pic.channels ∨ pic.w * pic.h * pic.channels < pic.channels) := by omega
  have g4 : ¬ (INT_MAX < pic.w * pic.h * pic.channels * 11 + 7) := by omega
  have htake : pic.pixels.take (pic.w * pic.h * pic.channels) = pic.pixels :=
    List.take_of_length_le (by omega)
  unfold pnmtodif_run reduced_of
  simp only [g1, g2, g3, g4, if_false, htake]

theorem code_off_eq_sum (R : List Nat) (ch n : Nat) :
    code_off R ch n = ((List.range n).map (fun j => code_len (resid R ch j))).sum := by
  induction n with
  | zero => simp [code_off]
  | succ n ih => simp [code_off, List.range_succ, ih]

theorem code_len_table (e : Nat) : code_len e = [2, 4, 7, 11].getD (map_value e) 0 := by
  unfold code_len map_value
  split_ifs <;> simp [prefix_length, level_bits]

/-- C24 inside the `int` range of the encoder's size computation: for a
picture with `w ≥ 1`, `h ≥ 1`, `c ∈ {1, 3}` and `w * h * c` samples whose
worst-case bit count `w * h * c * 11 + 7` is at most `INT_MAX`, `pnmtodif` returns
a DIF of exactly `11 + c + ceil(S / 8)` bytes, where `S` is the sum over the
`n = (w * h - 1) * c` samples after the first pixel of the code length of the
zigzag-folded residual, 2, 4, 7 or 11 bits for levels 0 to 3; the length lies
between `11 + c + ceil(2n / 8)` and `11 + c + ceil(11n / 8)`, and a picture of
one pixel gives `11 + c` bytes. -/
theorem dif_length (pic : Picture) (hw1 : 1 ≤ pic.w) (hh1 : 1 ≤ pic.h)
    (hc : pic.channels = 1 ∨ pic.channels = 3)
    (hlen : pic.pixels.length = pic.w * pic.h * pic.channels) (hf : FitsInt pic) :
    ∃ dif, pnmtodif_run pic = Run.ret 0 (some dif)
      ∧ dif.length = 11 + pic.channels
          + (((List.range ((pic.w * pic.h - 1) * pic.channels)).map
                (fun j => code_len (resid (reduced_of pic) pic.channels j))).sum + 7) / 8
      ∧ (∀ e, code_len e = [2, 4, 7, 11].getD (map_value e) 0 ∧ map_value e < NUM_LEVELS)
      ∧ 11 + pic.channels + (2 * ((pic.w * pic.h - 1) * pic.channels) + 7) / 8 ≤ dif.length
      ∧ dif.length ≤ 11 + pic.channels + (11 * ((pic.w * pic.h - 1) * pic.channels) + 7) / 8
      ∧ (pic.w * pic.h = 1 → dif.length = 11 + pic.channels) := by
  have hwh : 1 ≤ pic.w * pic.h := Nat.mul_pos hw1 hh1
  have hch : 1 ≤ pic.channels ∧ pic.channels ≤ 3 := by omega
  have htot2 : pic.channels ≤ pic.w * pic.h * pic.channels := Nat.le_mul_of_pos_left _ hwh
  obtain ⟨-, e2, e3⟩ := encode_payload_spec (reduced_of pic) pic.channels (pic.w * pic.h)
    (pic.w * pic.h * pic.channels) hch.2 hwh rfl
  have hge := code_off_ge (reduced_of pic) pic.channels ((pic.w * pic.h - 1) * pic.channels)
  have hle := code_off_le (reduced_of pic) pic.channels ((pic.w * pic.h - 1) * pic.channels)
  have hsum := code_off_eq_sum (reduced_of pic) pic.channels ((pic.w * pic.h - 1) * pic.channels)
  have hseed : ((reduced_of pic).take pic.channels).length = pic.channels := by
    rw [List.length_take, reduced_of, List.length_map, hlen]
    omega
  have hL : (dif_header pic ++ (reduced_of pic).take pic.channels
      ++ encode_payload (reduced_of pic) pic.channels (pic.w * pic.h)
          (pic.w * pic.h * pic.channels)).length
      = 11 + pic.channels + (encode_payload (reduced_of pic) pic.channels (pic.w * pic.h)
          (pic.w * pic.h * pic.channels)).length := by
    rw [List.length_append, List.length_append, hseed, dif_header_eq]
    rfl
  refine ⟨_, pnmtodif_run_of_fits pic hw1 hh1 hc hlen hf, ?_, ?_, ?_, ?_, ?_⟩
  · rw [hL, ← hsum]; omega
  · exact fun e => ⟨code_len_table e, map_value_lt e⟩
  · rw [hL]; omega
  · rw [hL]; omega
  · intro h1
    have h0 : (pic.w * pic.h - 1) * pic.channels = 0 := by rw [h1]; simp
    rw [h0] at e3
    simp only [code_off] at e3
    rw [hL]
    omega

theorem dif_length_witness :
    ∃ dif, pnmtodif_run ⟨1, 2, 1, [10, 12]⟩ = Run.ret 0 (some dif)
      ∧ dif.length = 11 + 1
          + (((List.range ((1 * 2 - 1) * 1)).map
                (fun j => code_len (resid (reduced_of ⟨1, 2, 1, [10, 12]⟩) 1 j))).sum + 7) / 8
      ∧ (∀ e, code_len e = [2, 4, 7, 11].getD (map_value e) 0 ∧ map_value e < NUM_LEVELS)
      ∧ 11 + 1 + (2 * ((1 * 2 - 1) * 1) + 7) / 8 ≤ dif.length
      ∧ dif.length ≤ 11 + 1 + (11 * ((1 * 2 - 1) * 1) + 7) / 8
      ∧ (1 * 2 = 1 → dif.length = 11 + 1) :=
  dif_length ⟨1, 2, 1, [10, 12]⟩ (by decide) (by decide) (Or.inl rfl) rfl (by decide)

/-- C24, at the failing input: the 30000 x 10000 grayscale picture has `w ≥ 1`,
`h ≥ 1`, `c = 1`, byte samples, and its 300000000 samples fit `int`, but the
size `total * 11 + 7` that `pnmtodif` computes for its buffer exceeds
`INT_MAX`: the run is undefined (with two's-complement wrap-around the size is
negative and no buffer is allocated) and no DIF of any length is returned. -/
theorem dif_length_beyond_int :
    ValidPicture ⟨30000, 10000, 1, List.replicate (30000 * 10000 * 1) 0⟩
      ∧ 30000 * 10000 * 1 ≤ INT_MAX
      ∧ INT_MAX < 30000 * 10000 * 1 * 11 + 7
      ∧ (wrap_int (30000 * 10000 * 1 * 11 + 7)).tdiv 8 + 16 < 0
      ∧ pnmtodif_run ⟨30000, 10000, 1, List.replicate (30000 * 10000 * 1) 0⟩ = Run.undef
      ∧ ∀ dif, pnmtodif_run ⟨30000, 10000, 1, List.replicate (30000 * 10000 * 1) 0⟩
          ≠ Run.ret 0 (some dif) := by
  have h := pnmtodif_run_overflow 30000 10000 1 (List.replicate (30000 * 10000 * 1) 0)
    (by decide) (by decide) (by decide) (by decide) (List.length_replicate _ _) (by decide)
  refine ⟨⟨by decide, by decide, by decide, by decide, Or.inl rfl, List.length_replicate _ _,
      replicate_zero_bytes _⟩, by decide, by decide, by decide, h,
    fun dif hd => by rw [h] at hd; exact Run.noConfusion hd⟩

end CoDec
